import Mathlib

/-!
Verification of the `rustrunner` control plane against its specification.

This file gives a shallow embedding, in Lean 4, of the parts of the Rust
source that the specification's claims are about:

* `src/config.rs` — service configuration validation, schedule parsing and
  normalization, multi-runner URL expansion, the Wasm page-limit conversion;
* `src/queue.rs` — the in-memory queue registry;
* `src/logs.rs` — the bounded per-service log ring;
* `src/stats.rs` — the per-minute HTTP status statistics store;
* `src/server.rs` — the gateway's request dispatch and prefix routing.

Rust strings are modelled as lists of characters (`Str`), `u64`/`u32`
arithmetic as `Nat` with explicit saturation/bounds where the source uses
them, `HashMap`s as association lists (their iteration order is arbitrary in
Rust; every property proved here is insensitive to that order), `BTreeMap`s
as key-sorted association lists, and fallible functions as a `RRes` result
type.  Effects that the claims do not touch (actual network I/O, file
reading, lock poisoning) are modelled by explicit parameters or omitted,
as noted at each definition.
-/

namespace RustRunner

/-- Characters of a Rust `String` / `&str`, modelled as a list of `Char`. -/
abbrev Str := List Char

/-- Embeds a Lean string literal as a `Str`. -/
def chars (s : String) : Str := s.data

/-- Largest `u64` value. -/
def u64MAX : Nat := 2 ^ 64 - 1

/-- Largest `u32` value. -/
def u32MAX : Nat := 2 ^ 32 - 1

/-- Result type modelling `anyhow::Result` / `Result<_, String>`: either a
value or an error message. -/
inductive RRes (α : Type) where
  | ok (value : α)
  | err (msg : Str)
deriving DecidableEq, Repr

/-- Whether `RRes` is a success. -/
def RRes.isOk {α} : RRes α → Bool
  | .ok _ => true
  | .err _ => false

/-- Models Rust `char::is_whitespace` on the ASCII whitespace characters
(space, tab, newline, vertical tab, form feed, carriage return); the
additional Unicode whitespace code points accepted by Rust are not relevant
to any configuration string in the claims. -/
def isRustWs (c : Char) : Bool :=
  c == ' ' || c == '\t' || c == '\n' || c == '\x0b' || c == '\x0c' || c == '\r'

/-- Models `str::trim_start`. -/
def trimStart (s : Str) : Str := s.dropWhile isRustWs

/-- Models `str::trim_end`. -/
def trimEnd (s : Str) : Str := (s.reverse.dropWhile isRustWs).reverse

/-- Models `str::trim`. -/
def trim (s : Str) : Str := trimEnd (trimStart s)

/-- Models `str::trim_start_matches(c)` for a single-character pattern. -/
def trimStartMatches (c : Char) (s : Str) : Str := s.dropWhile (· == c)

/-- Models `str::trim_end_matches(c)` for a single-character pattern. -/
def trimEndMatches (c : Char) (s : Str) : Str := (s.reverse.dropWhile (· == c)).reverse

/-- Models `str::trim_matches(c)` for a single-character pattern. -/
def trimMatches (c : Char) (s : Str) : Str := trimEndMatches c (trimStartMatches c s)

/-- Models `str::strip_prefix`: `some rest` when `p` is an initial run of
`s`, `none` otherwise. -/
def stripPfx (p s : Str) : Option Str :=
  if p.isPrefixOf s then some (s.drop p.length) else none

/-- Lookup in an association list; models `HashMap::get` / probing an
`Entry`.  (Rust hash maps have no duplicate keys; the lists built by the
operations below never introduce one.) -/
def findAssoc {κ β : Type} [DecidableEq κ] : List (κ × β) → κ → Option β
  | [], _ => none
  | (k', v) :: rest, k => if k' = k then some v else findAssoc rest k

/-- Models `map.entry(k).or_insert_with(default)` followed by a mutation
`f` of the entry: updates the first binding of `k` in place, or appends a
fresh binding `(k, f dflt)` when `k` is absent. -/
def modifyAssoc {κ β : Type} [DecidableEq κ] (l : List (κ × β)) (k : κ) (dflt : β)
    (f : β → β) : List (κ × β) :=
  match l with
  | [] => [(k, f dflt)]
  | (k', v) :: rest =>
    if k' = k then (k', f v) :: rest else (k', v) :: modifyAssoc rest k dflt f

/-! ## Configuration data model (`src/config.rs`) -/

/-- Models `ServiceKind` (`type` ∈ bff | business | adapter). -/
inductive ServiceKind where
  | bff
  | business
  | adapter
deriving DecidableEq, Repr

/-- Models `ServiceSchedule { endpoint, interval_secs }`. -/
structure ServiceSchedule where
  endpoint : Str
  intervalSecs : Nat
deriving DecidableEq, Repr

/-- Models `ServiceQueueListener { queue, path }`. -/
structure ServiceQueueListener where
  queue : Str
  path : Str
deriving DecidableEq, Repr

/-- Models the loaded `Service` record.  The routing prefix field `prefix`
is called `pfx` here; `runner_urls` keeps the raw URL strings as in the
source.  The OpenAPI GET set (`HashSet<String>`) is a list used only
through membership. -/
structure Service where
  name : Str
  domain : Str
  kind : ServiceKind
  pfx : Str
  baseUrl : Str
  runnerUrls : List Str
  allowedGetEndpoints : List Str
  queueListeners : List ServiceQueueListener
  schedules : List ServiceSchedule
  memoryLimitMb : Option Nat
  runnerInstances : Nat
deriving DecidableEq, Repr

/-- Models `MAX_MEMORY_LIMIT_MB = u32::MAX / 16`. -/
def MAX_MEMORY_LIMIT_MB : Nat := u32MAX / 16

/-- Models `Service::memory_page_limit`: `memory_limit_mb.checked_mul(16)`
in `u64`, then `try_into::<u32>()`. -/
def Service.memoryPageLimit (s : Service) : Option Nat :=
  (s.memoryLimitMb.bind fun limit =>
    if limit * 16 ≤ u64MAX then some (limit * 16) else none).bind
    fun pages => if pages ≤ u32MAX then some pages else none

/-- Models the raw `service.json` fields relevant to validation
(`RawServiceConfig`); `listeners` and `schedules` are carried for
completeness. -/
structure RawServiceConfig where
  pfx : Str
  url : Str
  domain : Str
  kind : ServiceKind
  runners : Nat
  memoryLimitMb : Option Nat
  listeners : List (List (Str × Str))
  schedules : List ServiceSchedule
deriving DecidableEq, Repr

/-- Models `validate_service_config`: empty `prefix`/`url`/`domain`, zero
`runners`, zero or over-large `memory_limit_mb` abort with a message naming
the service. -/
def validateServiceConfig (name : Str) (config : RawServiceConfig) : RRes Unit :=
  if trim config.pfx = [] then
    .err (chars "prefix for service '" ++ name ++ chars "' cannot be empty")
  else if trim config.url = [] then
    .err (chars "url for service '" ++ name ++ chars "' cannot be empty")
  else if trim config.domain = [] then
    .err (chars "domain for service '" ++ name ++ chars "' must be at least 1")
  else if config.runners = 0 then
    .err (chars "runners for service '" ++ name ++ chars "' must be at least 1")
  else
    match config.memoryLimitMb with
    | none => .ok ()
    | some limit =>
      if limit = 0 then
        .err (chars "memory_limit_mb for service '" ++ name ++
          chars "' must be greater than zero")
      else if MAX_MEMORY_LIMIT_MB < limit then
        .err (chars "memory_limit_mb for service '" ++ name ++
          chars "' exceeds supported maximum")
      else .ok ()

/-! ### Schedule wire formats (`RawScheduleConfig` parsing) -/

/-- Minimal JSON value model (`serde_json::Value`); numbers are integers —
every schedule value in the claims is an integer, and `as_u64` is `None`
on any non-integer number anyway. -/
inductive Json where
  | null
  | bool (b : Bool)
  | num (n : Int)
  | str (s : Str)
  | arr (items : List Json)
  | obj (fields : List (Str × Json))
deriving Repr

/-- Models `Value::as_str`. -/
def Json.asStr : Json → Option Str
  | .str s => some s
  | _ => none

/-- Models `Value::as_u64`: integers in `[0, u64::MAX]` only. -/
def Json.asU64 : Json → Option Nat
  | .num n => if 0 ≤ n ∧ n ≤ (u64MAX : Int) then some n.toNat else none
  | _ => none

/-- Models `RawScheduleConfig` before normalization. -/
structure RawScheduleConfig where
  endpoint : Str
  intervalSecs : Nat
deriving DecidableEq, Repr

/-- Models `parse_interval_value`. -/
def parseIntervalValue (value : Json) : RRes Nat :=
  match value.asU64 with
  | some n => .ok n
  | none => .err (chars "schedule interval must be a positive integer")

/-- Models `parse_schedule_from_array`: the `[endpoint, interval]` shape. -/
def parseScheduleFromArray (items : List Json) : RRes RawScheduleConfig :=
  if items.length ≠ 2 then
    .err (chars "schedule array must contain exactly two items")
  else
    match (items.get? 0).bind Json.asStr with
    | none => .err (chars "schedule array first item must be a string endpoint")
    | some endpoint =>
      match items.get? 1 with
      | none => .err (chars "schedule array second item must be an interval")
      | some intervalValue =>
        match parseIntervalValue intervalValue with
        | .ok intervalSecs => .ok ⟨endpoint, intervalSecs⟩
        | .err e => .err e

/-- The reserved field names of the schedule object shape. -/
def reservedScheduleKey (k : Str) : Bool :=
  k == chars "endpoint" || k == chars "path" || k == chars "interval" ||
  k == chars "interval_secs" || k == chars "seconds" || k == chars "every_secs"

/-- Models `serde_json::Map::remove`: the removed value (if the key is
bound) and the remaining fields. -/
def removeKey (fields : List (Str × Json)) (k : Str) : Option Json × List (Str × Json) :=
  match fields with
  | [] => (none, [])
  | (k', v) :: rest =>
    if k' = k then (some v, rest)
    else
      let (found, rest') := removeKey rest k
      (found, (k', v) :: rest')

/-- The `endpoint`/`interval` field path of `parse_schedule_from_object`:
`endpoint` or `path`, then `interval_secs`, `seconds`, `interval`,
`every_secs` in that order. -/
def parseScheduleObjectFields (fields : List (Str × Json)) : RRes RawScheduleConfig :=
  let (e1, f1) := removeKey fields (chars "endpoint")
  let (endpointValue, f2) :=
    match e1 with
    | some v => (some v, f1)
    | none => removeKey f1 (chars "path")
  match endpointValue with
  | none => .err (chars "schedule object missing 'endpoint' field")
  | some ev =>
    match ev.asStr with
    | none => .err (chars "schedule 'endpoint' must be a string")
    | some endpoint =>
      let (i1, g1) := removeKey f2 (chars "interval_secs")
      let (i2, g2) := match i1 with
        | some v => (some v, g1)
        | none => removeKey g1 (chars "seconds")
      let (i3, g3) := match i2 with
        | some v => (some v, g2)
        | none => removeKey g2 (chars "interval")
      let (i4, _g4) := match i3 with
        | some v => (some v, g3)
        | none => removeKey g3 (chars "every_secs")
      match i4 with
      | none => .err (chars "schedule object missing interval field")
      | some intervalValue =>
        match parseIntervalValue intervalValue with
        | .ok intervalSecs => .ok ⟨endpoint, intervalSecs⟩
        | .err e => .err e

/-- Models `parse_schedule_from_object`: the single-entry `{endpoint:
interval}` shape when the key is not reserved, otherwise the named-field
shape. -/
def parseScheduleFromObject (fields : List (Str × Json)) : RRes RawScheduleConfig :=
  match fields with
  | [(k, v)] =>
    if reservedScheduleKey k then parseScheduleObjectFields fields
    else
      match parseIntervalValue v with
      | .ok intervalSecs => .ok ⟨k, intervalSecs⟩
      | .err e => .err e
  | _ => parseScheduleObjectFields fields

/-- Models `RawScheduleConfig`'s `Deserialize` impl: arrays and objects
only. -/
def parseScheduleEntry (value : Json) : RRes RawScheduleConfig :=
  match value with
  | .arr items => parseScheduleFromArray items
  | .obj fields => parseScheduleFromObject fields
  | _ => .err (chars "schedule entry must be an array or object")

/-- Models `normalize_service_schedules`: trims each endpoint, rejects
empty endpoints, zero intervals and endpoints not in the OpenAPI GET set. -/
def normalizeServiceSchedules (serviceName : Str) (allowedEndpoints : List Str) :
    List RawScheduleConfig → RRes (List ServiceSchedule)
  | [] => .ok []
  | raw :: rest =>
    if trimMatches '/' (trim raw.endpoint) = [] then
      .err (chars "schedule entry for service '" ++ serviceName ++
        chars "' must declare a non-empty endpoint")
    else if raw.intervalSecs = 0 then
      .err (chars "schedule entry for service '" ++ serviceName ++
        chars "' must declare an interval greater than zero")
    else if trimMatches '/' (trim raw.endpoint) ∈ allowedEndpoints then
      match normalizeServiceSchedules serviceName allowedEndpoints rest with
      | .ok tail => .ok (⟨trimMatches '/' (trim raw.endpoint), raw.intervalSecs⟩ :: tail)
      | .err e => .err e
    else
      .err (chars "schedule endpoint for service '" ++ serviceName ++
        chars "' is not declared in its OpenAPI document")

/-! ### Multi-runner URL expansion (`build_runner_urls`) -/

/-- Abstract result of `url::Url::parse`: the scheme and the explicit port,
the only components `build_runner_urls` inspects.  A `none` parse models
`Url::parse` failing. -/
structure UrlModel where
  scheme : Str
  port : Option Nat
deriving DecidableEq, Repr

/-- Models `url::Url::port_or_known_default`: the explicit port, or the
scheme's known default (http 80, https 443, ws 80, wss 443, ftp 21). -/
def portOrKnownDefault (u : UrlModel) : Option Nat :=
  match u.port with
  | some p => some p
  | none =>
    if u.scheme = chars "http" then some 80
    else if u.scheme = chars "https" then some 443
    else if u.scheme = chars "ws" then some 80
    else if u.scheme = chars "wss" then some 443
    else if u.scheme = chars "ftp" then some 21
    else none

/-- A produced runner URL: the untouched (trailing-slash-trimmed) input
string in the single-runner case, or the parsed URL with its port replaced
(`clone.set_port(Some(port))`) in the multi-runner case. -/
inductive RunnerUrl where
  | rawUrl (s : Str)
  | portUrl (u : UrlModel)
deriving DecidableEq, Repr

/-- The effective port a produced runner URL carries, when it was derived
by `set_port`. -/
def RunnerUrl.portOf : RunnerUrl → Option Nat
  | .rawUrl _ => none
  | .portUrl u => u.port

/-- The port-allocation loop of `build_runner_urls`: offsets
`off, off+1, …, off+count−1` from `startPort`, failing as soon as a port
exceeds `u16::MAX = 65535`. -/
def allocateRunnerPorts (scheme : Str) (startPort : Nat) : Nat → Nat → RRes (List RunnerUrl)
  | _, 0 => .ok []
  | off, count + 1 =>
    if 65535 < startPort + off then
      .err (chars "cannot allocate runner because it would exceed TCP port range")
    else
      match allocateRunnerPorts scheme startPort (off + 1) count with
      | .ok rest => .ok (.portUrl ⟨scheme, some (startPort + off)⟩ :: rest)
      | .err e => .err e

/-- Models `build_runner_urls`.  `parsed` is the outcome of
`Url::parse(url.trim())` (see `UrlModel`); the `name` parameter only feeds
error messages in the source. -/
def buildRunnerUrls (rawUrl : Str) (parsed : Option UrlModel) (runners : Nat) :
    RRes (List RunnerUrl) :=
  if trim rawUrl = [] then .err (chars "url cannot be empty")
  else if runners = 1 then .ok [.rawUrl (trimEndMatches '/' (trim rawUrl))]
  else
    match parsed with
    | none => .err (chars "failed to parse URL")
    | some u =>
      match portOrKnownDefault u with
      | none => .err (chars "must include a port in the URL to run multiple instances")
      | some startPort => allocateRunnerPorts u.scheme startPort 0 runners

/-! ## Queue registry (`src/queue.rs`) -/

/-- Models `QueueSubscriber { service_name, target_url }`. -/
structure QueueSubscriber where
  serviceName : Str
  targetUrl : Str
deriving DecidableEq, Repr

/-- Models `QueueInfo { subscribers, message_count, instantiated }`. -/
structure QueueInfo where
  subscribers : List QueueSubscriber
  messageCount : Nat
  instantiated : Bool
deriving DecidableEq, Repr

/-- Models `QueueInfo::default()`. -/
def QueueInfo.dflt : QueueInfo := ⟨[], 0, false⟩

/-- Models `QueueRegistry`: queue name → info (a `HashMap`, modelled as an
association list). -/
def QueueRegistry := List (Str × QueueInfo)
deriving instance DecidableEq for QueueRegistry

/-- Models `QueueRegistry::register_listener`: `entry(queue).or_default()`,
then push the listener unless already present. -/
def registerListener (reg : QueueRegistry) (queue : Str) (listener : QueueSubscriber) :
    QueueRegistry :=
  modifyAssoc reg queue QueueInfo.dflt fun info =>
    if listener ∈ info.subscribers then info
    else ⟨info.subscribers ++ [listener], info.messageCount, info.instantiated⟩

/-- Models `QueueRegistry::prepare_delivery`: mark instantiated, bump the
count with `saturating_add(1)` on `u64`, and return the subscriber snapshot
with the post-increment count, together with the updated registry. -/
def prepareDelivery (reg : QueueRegistry) (queue : Str) :
    (List QueueSubscriber × Nat) × QueueRegistry :=
  let reg' := modifyAssoc reg queue QueueInfo.dflt fun info =>
    ⟨info.subscribers, min (info.messageCount + 1) u64MAX, true⟩
  let info := (findAssoc reg' queue).getD QueueInfo.dflt
  ((info.subscribers, info.messageCount), reg')

/-- Models `QueueSnapshot`. -/
structure QueueSnapshot where
  name : Str
  messageCount : Nat
  subscriberCount : Nat
deriving DecidableEq, Repr

/-- Models `QueueRegistry::snapshot`: instantiated queues only, sorted by
name. -/
def queueRegistrySnapshot (reg : QueueRegistry) : List QueueSnapshot :=
  List.insertionSort (fun a b => a.name ≤ b.name)
    ((reg.filter fun e => e.2.instantiated).map fun e =>
      ⟨e.1, e.2.messageCount, e.2.subscribers.length⟩)

/-- The message count of a queue as observable in the registry (0 for an
absent queue, as in snapshots of never-touched queues). -/
def messageCountOf (reg : QueueRegistry) (queue : Str) : Nat :=
  ((findAssoc reg queue).map QueueInfo.messageCount).getD 0

/-- The current subscriber list of a queue. -/
def subscribersOf (reg : QueueRegistry) (queue : Str) : List QueueSubscriber :=
  ((findAssoc reg queue).map QueueInfo.subscribers).getD []

/-- Whether a queue is marked instantiated. -/
def instantiatedOf (reg : QueueRegistry) (queue : Str) : Bool :=
  ((findAssoc reg queue).map QueueInfo.instantiated).getD false

/-- Models `register_service_listeners`: target URL is
`base_url/⟨path minus leading slashes⟩`. -/
def registerServiceListeners (reg : QueueRegistry) (service : Service) : QueueRegistry :=
  service.queueListeners.foldl
    (fun acc listener =>
      let targetUrl := trimEndMatches '/' service.baseUrl ++ [ '/' ] ++
        trimStartMatches '/' listener.path
      registerListener acc listener.queue ⟨service.name, targetUrl⟩)
    reg

/-- Models `initialize_queue_registry`. -/
def initializeQueueRegistry (services : List Service) : QueueRegistry :=
  services.foldl registerServiceListeners []

/-- The registry operations of the claims: `register_listener`,
`prepare_delivery` (a publish), and the read-only `snapshot`. -/
inductive QueueOp where
  | register (queue : Str) (listener : QueueSubscriber)
  | publish (queue : Str)
  | snap
deriving DecidableEq, Repr

/-- State transition of one registry operation (`snapshot` reads only). -/
def applyQueueOp (reg : QueueRegistry) : QueueOp → QueueRegistry
  | .register queue listener => registerListener reg queue listener
  | .publish queue => (prepareDelivery reg queue).2
  | .snap => reg

/-- State after a sequence of registry operations. -/
def applyQueueOps (reg : QueueRegistry) (ops : List QueueOp) : QueueRegistry :=
  ops.foldl applyQueueOp reg

/-- `n` successive publishes (`prepare_delivery` calls) on queue `queue`. -/
def publishN (reg : QueueRegistry) (queue : Str) : Nat → QueueRegistry
  | 0 => reg
  | n + 1 => (prepareDelivery (publishN reg queue n) queue).2

/-! ## Log ring (`src/logs.rs`) -/

/-- Models `MAX_STORED_LOG_LINES`. -/
def MAX_STORED_LOG_LINES : Nat := 200

/-- Models the eviction loop of `spawn_log_forwarder`:
`while entry.len() > MAX_STORED_LOG_LINES { entry.pop_front(); }`.
The `VecDeque` is a list with the oldest line first. -/
def ringEvict (l : List Str) : List Str :=
  if _h : MAX_STORED_LOG_LINES < l.length then ringEvict l.tail else l
termination_by l.length
decreasing_by
  simp only [List.length_tail]
  omega

/-- Models one stored push of `spawn_log_forwarder`: `entry.push_back(line)`
followed by the eviction loop. -/
def ringPush (l : List Str) (line : Str) : List Str := ringEvict (l ++ [line])

/-! ## Stats store (`src/stats.rs`)

Counts are `u32` in the source; they are modelled as `Nat` (a `u32`
overflow in `+= 1` would panic in a debug build and is outside every
claim).  `HashMap` levels (service, endpoint, status) are association
lists; the minute level is a `BTreeMap`, kept sorted by key. -/

/-- Models `MAX_MINUTES = 60`. -/
def MAX_MINUTES : Nat := 60

/-- Status → count map of one minute bucket (`HashMap<u16, u32>`). -/
abbrev StatusCounts := List (Nat × Nat)

/-- Minute → bucket map of one endpoint (`BTreeMap<u64, _>`), sorted by
minute. -/
abbrev MinuteMap := List (Nat × StatusCounts)

/-- Endpoint → minute map of one service (`HashMap<String, _>`). -/
abbrev EndpointMap := List (Str × MinuteMap)

/-- The store: service → endpoint map (`HashMap<String, _>`). -/
abbrev StatsData := List (Str × EndpointMap)

/-- Models `*bucket.entry(status).or_insert(0) += 1` on the status map. -/
def bumpStatus (counts : StatusCounts) (status : Nat) : StatusCounts :=
  match counts with
  | [] => [(status, 1)]
  | (s, c) :: rest =>
    if s = status then (s, c + 1) :: rest else (s, c) :: bumpStatus rest status

/-- Models `endpoint_entry.entry(minute).or_insert_with(HashMap::new)`
followed by the status bump, as an ordered insert into the `BTreeMap`. -/
def minuteUpdate (m : MinuteMap) (minute status : Nat) : MinuteMap :=
  match m with
  | [] => [(minute, [(status, 1)])]
  | (k, counts) :: rest =>
    if minute < k then (minute, [(status, 1)]) :: (k, counts) :: rest
    else if minute = k then (k, bumpStatus counts status) :: rest
    else (k, counts) :: minuteUpdate rest minute status

/-- Models `endpoint_entry.retain(|minute_key, _| *minute_key >= cutoff)`. -/
def retainFrom (m : MinuteMap) (cutoff : Nat) : MinuteMap :=
  m.filter fun kv => cutoff ≤ kv.1

/-- Models `StatsStore::record` at a timestamp of `unixSecs` seconds after
the epoch (the pre-epoch early return cannot fire for a `Nat` time):
`minute = unix_seconds / 60`, increment
`store[service][endpoint][minute][status]`, then drop this endpoint's
minute keys below `minute − (MAX_MINUTES − 1)` (`saturating_sub`). -/
def statsRecord (d : StatsData) (service endpoint : Str) (status unixSecs : Nat) :
    StatsData :=
  let minute := unixSecs / 60
  modifyAssoc d service [] fun em =>
    modifyAssoc em endpoint [] fun mm =>
      retainFrom (minuteUpdate mm minute status) (minute - (MAX_MINUTES - 1))

/-- One recorded observation, for reasoning about record sequences. -/
structure RecOp where
  service : Str
  endpoint : Str
  status : Nat
  time : Nat
deriving DecidableEq, Repr

/-- The store after a sequence of records, starting empty. -/
def applyRecords (ops : List RecOp) : StatsData :=
  ops.foldl (fun d op => statsRecord d op.service op.endpoint op.status op.time) []

/-- The minute keys currently stored for one `(service, endpoint)` bucket
map. -/
def bucketKeys (d : StatsData) (service endpoint : Str) : List Nat :=
  ((findAssoc ((findAssoc d service).getD []) endpoint).getD []).map Prod.fst

/-- Models `MinuteAggregate { minute, counts }` (counts sorted by status). -/
structure MinuteAggregate where
  minute : Nat
  counts : List (Nat × Nat)
deriving DecidableEq, Repr

/-- Models `EndpointSnapshot`. -/
structure EndpointSnapshot where
  endpoint : Str
  minutes : List MinuteAggregate
deriving DecidableEq, Repr

/-- Models `ServiceSnapshot`. -/
structure ServiceSnapshot where
  service : Str
  endpoints : List EndpointSnapshot
deriving DecidableEq, Repr

/-- Models `StatsSnapshot`. -/
structure StatsSnapshot where
  generatedAt : Nat
  windowMinutes : Nat
  global : List MinuteAggregate
  services : List ServiceSnapshot
deriving DecidableEq, Repr

/-- Models `BTreeMap::insert(status, count)` on the per-bucket
`sorted_counts` map: ordered insert, overwriting an equal key. -/
def orderedInsertPair (counts : List (Nat × Nat)) (status count : Nat) :
    List (Nat × Nat) :=
  match counts with
  | [] => [(status, count)]
  | (s, c) :: rest =>
    if status < s then (status, count) :: (s, c) :: rest
    else if status = s then (s, count) :: rest
    else (s, c) :: orderedInsertPair rest status count

/-- Models `*global_counts.entry(status).or_insert(0) += count` on a
`BTreeMap<u16, u32>`: ordered insert, adding to an equal key. -/
def orderedBump (counts : List (Nat × Nat)) (status count : Nat) : List (Nat × Nat) :=
  match counts with
  | [] => [(status, count)]
  | (s, c) :: rest =>
    if status < s then (status, count) :: (s, c) :: rest
    else if status = s then (s, c + count) :: rest
    else (s, c) :: orderedBump rest status count

/-- The global aggregate map of `snapshot` (`BTreeMap<u64, BTreeMap<u16,
u32>>`), sorted by minute. -/
abbrev GlobalMap := List (Nat × List (Nat × Nat))

/-- Models `global_map.entry(minute).or_default()` followed by the status
addition. -/
def globalAdd (gm : GlobalMap) (minute status count : Nat) : GlobalMap :=
  match gm with
  | [] => [(minute, orderedBump [] status count)]
  | (k, counts) :: rest =>
    if minute < k then (minute, orderedBump [] status count) :: (k, counts) :: rest
    else if minute = k then (k, orderedBump counts status count) :: rest
    else (k, counts) :: globalAdd rest minute status count

/-- The inner loop of `snapshot` over one bucket's `counts`: builds
`sorted_counts` and feeds the global map. -/
def processBucket (gm : GlobalMap) (minute : Nat) (counts : StatusCounts) :
    List (Nat × Nat) × GlobalMap :=
  counts.foldl
    (fun acc entry =>
      (orderedInsertPair acc.1 entry.1 entry.2, globalAdd acc.2 minute entry.1 entry.2))
    ([], gm)

/-- The loop of `snapshot` over one endpoint's minute map: the
iteration-ordered `minute_snapshots` and the updated global map. -/
def processEndpoint (gm : GlobalMap) (mm : MinuteMap) : List MinuteAggregate × GlobalMap :=
  mm.foldl
    (fun acc bucket =>
      (acc.1 ++ [⟨bucket.1, (processBucket acc.2 bucket.1 bucket.2).1⟩],
        (processBucket acc.2 bucket.1 bucket.2).2))
    ([], gm)

/-- The loop of `snapshot` over one service's endpoints: sorts each
endpoint's minutes (`sort_by_key(minute)`) and keeps non-empty endpoint
snapshots. -/
def processService (gm : GlobalMap) (em : EndpointMap) : List EndpointSnapshot × GlobalMap :=
  em.foldl
    (fun acc entry =>
      (if (List.insertionSort (fun a b => a.minute ≤ b.minute)
            (processEndpoint acc.2 entry.2).1).isEmpty
        then acc.1
        else acc.1 ++ [⟨entry.1, List.insertionSort (fun a b => a.minute ≤ b.minute)
          (processEndpoint acc.2 entry.2).1⟩],
        (processEndpoint acc.2 entry.2).2))
    ([], gm)

/-- The full loop of `snapshot` over the store: the (iteration-ordered)
service snapshots, keeping non-empty services only, and the final global
map. -/
def snapshotFold (d : StatsData) : List ServiceSnapshot × GlobalMap :=
  d.foldl
    (fun acc entry =>
      (if (List.insertionSort (fun a b => a.endpoint ≤ b.endpoint)
            (processService acc.2 entry.2).1).isEmpty
        then acc.1
        else acc.1 ++ [⟨entry.1, List.insertionSort (fun a b => a.endpoint ≤ b.endpoint)
          (processService acc.2 entry.2).1⟩],
        (processService acc.2 entry.2).2))
    ([], [])

/-- Models `StatsStore::snapshot` at `nowSecs` seconds after the epoch:
services and endpoints sorted by name, minutes ascending, a global
per-minute aggregate summed across services, `window_minutes = 60`. -/
def statsSnapshot (d : StatsData) (nowSecs : Nat) : StatsSnapshot :=
  ⟨nowSecs, MAX_MINUTES,
    (snapshotFold d).2.map fun e => ⟨e.1, e.2⟩,
    List.insertionSort (fun a b => a.service ≤ b.service) (snapshotFold d).1⟩

/-- The count stored for status `s` in a status-count list (0 when
absent). -/
def countIn (counts : List (Nat × Nat)) (s : Nat) : Nat :=
  ((counts.find? fun p => p.1 == s).map Prod.snd).getD 0

/-- The count reported for `(minute m, status s)` by a list of minute
aggregates (0 when the minute is absent). -/
def countAt (aggs : List MinuteAggregate) (m s : Nat) : Nat :=
  match aggs.find? fun a => a.minute == m with
  | some agg => countIn agg.counts s
  | none => 0

/-- The count the global accumulator map holds at `(minute m, status s)`. -/
def gmCount (gm : GlobalMap) (m s : Nat) : Nat :=
  countIn ((findAssoc gm m).getD []) s

/-- Total weight iterated for status `s` over one bucket's entries. -/
def bucketContrib (counts : StatusCounts) (s : Nat) : Nat :=
  (counts.map fun p => if p.1 = s then p.2 else 0).sum

/-- Total weight iterated for `(m, s)` over one endpoint's minute map. -/
def mmContrib (mm : MinuteMap) (m s : Nat) : Nat :=
  (mm.map fun b => if b.1 = m then bucketContrib b.2 s else 0).sum

/-- Total weight iterated for `(m, s)` over one service's endpoints. -/
def emContrib (em : EndpointMap) (m s : Nat) : Nat :=
  (em.map fun ep => mmContrib ep.2 m s).sum

/-- Total weight iterated for `(m, s)` over the whole store. -/
def dContrib (d : StatsData) (m s : Nat) : Nat :=
  (d.map fun svc => emContrib svc.2 m s).sum

/-- The `sorted_counts` map built for one bucket. -/
def sortedCountsOf (counts : StatusCounts) : List (Nat × Nat) :=
  counts.foldl (fun acc p => orderedInsertPair acc p.1 p.2) []

/-- Well-formedness of reachable stats data: every endpoint's minute map
has strictly increasing keys, and every bucket's status keys are
distinct. -/
def StatsWF (d : StatsData) : Prop :=
  ∀ svc ∈ d, ∀ ep ∈ svc.2,
    List.Pairwise (fun a b => a.1 < b.1) ep.2 ∧
    ∀ b ∈ ep.2, (b.2.map Prod.fst).Nodup

/-- Well-formedness of the global accumulator: minutes strictly
increasing, statuses strictly increasing inside each minute. -/
def GlobalWF (gm : GlobalMap) : Prop :=
  List.Pairwise (fun a b => a.1 < b.1) gm ∧
  ∀ entry ∈ gm, List.Pairwise (fun a b => a.1 < b.1) entry.2

instance : IsTotal ServiceSnapshot (fun a b => a.service ≤ b.service) :=
  ⟨fun a b => le_total a.service b.service⟩

instance : IsTrans ServiceSnapshot (fun a b => a.service ≤ b.service) :=
  ⟨fun _ _ _ h₁ h₂ => le_trans h₁ h₂⟩

instance : IsTotal EndpointSnapshot (fun a b => a.endpoint ≤ b.endpoint) :=
  ⟨fun a b => le_total a.endpoint b.endpoint⟩

instance : IsTrans EndpointSnapshot (fun a b => a.endpoint ≤ b.endpoint) :=
  ⟨fun _ _ _ h₁ h₂ => le_trans h₁ h₂⟩

instance : IsTotal MinuteAggregate (fun a b => a.minute ≤ b.minute) :=
  ⟨fun a b => le_total a.minute b.minute⟩

instance : IsTrans MinuteAggregate (fun a b => a.minute ≤ b.minute) :=
  ⟨fun _ _ _ h₁ h₂ => le_trans h₁ h₂⟩

/-! ## Gateway dispatch (`src/server.rs`) -/

/-- The request methods the gateway distinguishes: `GET`, `POST`, and
everything else (`PUT`, `DELETE`, …), which `handle_request` treats
uniformly. -/
inductive HttpMethod where
  | get
  | post
  | other
deriving DecidableEq, Repr

/-- Models `Service::supports`: GET requests on declared OpenAPI GET
endpoints only. -/
def Service.supports (s : Service) (method : HttpMethod) (endpoint : Str) : Bool :=
  method == .get && s.allowedGetEndpoints.contains endpoint

/-- Models `resolve_service_route`: first service (in load order) whose
`prefix` is an initial run of the trimmed path, provided the remainder
minus leading slashes is non-empty. -/
def resolveServiceRoute (services : List Service) (trimmedPath : Str) :
    Option (Service × Str) :=
  match services with
  | [] => none
  | service :: rest =>
    match stripPfx service.pfx trimmedPath with
    | some r =>
      if trimStartMatches '/' r = [] then resolveServiceRoute rest trimmedPath
      else some (service, trimStartMatches '/' r)
    | none => resolveServiceRoute rest trimmedPath

/-- Outcome of the upstream `ureq` call the gateway issues when it
forwards: a response (`Ok` or `Error::Status`, both mirrored) or a
transport error. -/
inductive Upstream where
  | ok (status : Nat)
  | errStatus (status : Nat)
  | transportErr
deriving DecidableEq, Repr

/-- The reply `handle_request` produces.  Branches whose body only reads
other stores (dashboard, stats JSON, log/openapi lookups, queue publish,
schedule control) are kept abstract: none of them records into the stats
store. -/
inductive GatewayReply where
  | notFound
  | methodNotAllowed
  | healthOk
  | dashboard
  | statsJson
  | internalService (rest : Str)
  | queuePublish (queueName : Str)
  | serviceControl (rest : Str)
  | upstreamReply (status : Nat)
  | upstreamError
deriving DecidableEq, Repr

/-- What one handled request did: the reply, the `(service, endpoint,
status)` entries recorded into the stats store, and whether the upstream
loopback call was issued. -/
structure GatewayOutcome where
  reply : GatewayReply
  statsRecords : List (Str × Str × Nat)
  upstreamCalled : Bool
deriving DecidableEq, Repr

/-- Models `handle_request`: the dispatch order of the source — POST
control paths, 405 for other non-GET methods, `health`, dashboard, stats,
internal service paths, then prefix routing with the OpenAPI GET filter,
forwarding, and stats recording (502 on transport failure). -/
def handleRequest (services : List Service) (method : HttpMethod) (url : Str)
    (upstream : Upstream) : GatewayOutcome :=
  if method = .post then
    match stripPfx (chars "__runner__/queues/") (trimStartMatches '/' (url.takeWhile (· ≠ '?'))) with
    | some queueName => ⟨.queuePublish queueName, [], false⟩
    | none =>
      match stripPfx (chars "__runner__/services/") (trimStartMatches '/' (url.takeWhile (· ≠ '?'))) with
      | some rest => ⟨.serviceControl rest, [], false⟩
      | none => ⟨.notFound, [], false⟩
  else if method ≠ .get then ⟨.methodNotAllowed, [], false⟩
  else if trimStartMatches '/' (url.takeWhile (· ≠ '?')) = chars "health" then
    ⟨.healthOk, [], false⟩
  else if trimStartMatches '/' (url.takeWhile (· ≠ '?')) = [] then ⟨.dashboard, [], false⟩
  else if trimStartMatches '/' (url.takeWhile (· ≠ '?')) = chars "__runner__/stats" then
    ⟨.statsJson, [], false⟩
  else
    match stripPfx (chars "__runner__/services/") (trimStartMatches '/' (url.takeWhile (· ≠ '?'))) with
    | some rest => ⟨.internalService rest, [], false⟩
    | none =>
      match resolveServiceRoute services (trimStartMatches '/' (url.takeWhile (· ≠ '?'))) with
      | none => ⟨.notFound, [], false⟩
      | some (service, endpointPath) =>
        if service.supports method endpointPath then
          match upstream with
          | .ok status =>
            ⟨.upstreamReply status, [(service.name, endpointPath, status)], true⟩
          | .errStatus status =>
            ⟨.upstreamReply status, [(service.name, endpointPath, status)], true⟩
          | .transportErr =>
            ⟨.upstreamError, [(service.name, endpointPath, 502)], true⟩
        else ⟨.notFound, [], false⟩

/-- The first path segment of a trimmed path (up to the first `/`). -/
def firstSegment (s : Str) : Str := s.takeWhile (· ≠ '/')

/-! ## Concrete fixtures used by witnesses and counterexamples -/

/-- A service with routing prefix `svc` whose OpenAPI declares
`GET /x/ping`. -/
def svcSliced : Service :=
  ⟨chars "svc", chars "demo", .business, chars "svc", chars "http://localhost:1234",
    [chars "http://localhost:1234"], [chars "x/ping"], [], [], none, 1⟩

/-- A service with routing prefix `svc` whose OpenAPI declares
`GET /ping`. -/
def svcPing : Service :=
  ⟨chars "svc", chars "demo", .business, chars "svc", chars "http://localhost:1234",
    [chars "http://localhost:1234"], [chars "ping"], [], [], none, 1⟩

/-- A registry whose queue `q` already saturated its `u64` message
counter. -/
def regSaturated : QueueRegistry := [(chars "q", ⟨[], u64MAX, true⟩)]

/-- A raw `service.json` whose `memory_limit_mb` is 0. -/
def cfgZeroLimit : RawServiceConfig :=
  ⟨chars "svc", chars "http://localhost:1234", chars "demo", .business, 1, some 0, [], []⟩

/-- A loaded service with `memory_limit_mb = 100`. -/
def svcMem : Service :=
  ⟨chars "svc", chars "demo", .business, chars "svc", chars "http://localhost:1234",
    [chars "http://localhost:1234"], [chars "ping"], [], [], some 100, 1⟩

/-! ## Association-list lemmas -/

theorem findAssoc_modifyAssoc {κ β : Type} [DecidableEq κ] (l : List (κ × β)) (k k' : κ)
    (dflt : β) (f : β → β) :
    findAssoc (modifyAssoc l k dflt f) k' =
      if k = k' then some (f ((findAssoc l k).getD dflt)) else findAssoc l k' := by
  induction l with
  | nil =>
    by_cases h : k = k' <;> simp [modifyAssoc, findAssoc, h]
  | cons head tl ih =>
    obtain ⟨k₀, v⟩ := head
    by_cases h₀ : k₀ = k
    · subst h₀
      by_cases h' : k₀ = k' <;> simp [modifyAssoc, findAssoc, h']
    · by_cases h' : k₀ = k'
      · subst h'
        have hkk : k ≠ k₀ := fun h => h₀ h.symm
        simp [modifyAssoc, findAssoc, h₀, hkk]
      · simp [modifyAssoc, findAssoc, h₀, h', ih]

/-! ## Queue registry lemmas -/

theorem messageCountOf_registerListener (reg : QueueRegistry) (q q' : Str)
    (l : QueueSubscriber) :
    messageCountOf (registerListener reg q l) q' = messageCountOf reg q' := by
  unfold messageCountOf registerListener
  rw [findAssoc_modifyAssoc]
  by_cases h : q = q'
  · subst h
    cases hf : findAssoc reg q <;> simp [hf] <;> split <;> rfl
  · simp [h]

theorem messageCountOf_prepareDelivery (reg : QueueRegistry) (q q' : Str) :
    messageCountOf (prepareDelivery reg q).2 q' =
      if q = q' then min (messageCountOf reg q + 1) u64MAX
      else messageCountOf reg q' := by
  unfold messageCountOf prepareDelivery
  rw [findAssoc_modifyAssoc]
  by_cases h : q = q'
  · subst h
    cases hf : findAssoc reg q <;> simp [hf, QueueInfo.dflt]
  · simp [h]

theorem prepareDelivery_returned_count (reg : QueueRegistry) (q : Str) :
    (prepareDelivery reg q).1.2 = min (messageCountOf reg q + 1) u64MAX := by
  unfold prepareDelivery messageCountOf
  simp only [findAssoc_modifyAssoc, if_pos rfl]
  cases hf : findAssoc reg q <;> simp [hf, QueueInfo.dflt]

theorem prepareDelivery_returned_subscribers (reg : QueueRegistry) (q : Str) :
    (prepareDelivery reg q).1.1 = subscribersOf reg q := by
  unfold prepareDelivery subscribersOf
  simp only [findAssoc_modifyAssoc, if_pos rfl]
  cases hf : findAssoc reg q <;> simp [hf, QueueInfo.dflt]

theorem instantiatedOf_prepareDelivery (reg : QueueRegistry) (q : Str) :
    instantiatedOf (prepareDelivery reg q).2 q = true := by
  unfold instantiatedOf prepareDelivery
  simp only [findAssoc_modifyAssoc, if_pos rfl]
  cases hf : findAssoc reg q <;> simp [hf, QueueInfo.dflt]

theorem messageCountOf_registerServiceListeners (reg : QueueRegistry) (s : Service)
    (q : Str) :
    messageCountOf (registerServiceListeners reg s) q = messageCountOf reg q := by
  unfold registerServiceListeners
  induction s.queueListeners generalizing reg with
  | nil => rfl
  | cons l ls ih => simp only [List.foldl_cons, ih, messageCountOf_registerListener]

theorem messageCountOf_initializeQueueRegistry (services : List Service) (q : Str) :
    messageCountOf (initializeQueueRegistry services) q = 0 := by
  unfold initializeQueueRegistry
  have aux : ∀ (ss : List Service) (reg : QueueRegistry),
      messageCountOf (ss.foldl registerServiceListeners reg) q = messageCountOf reg q := by
    intro ss
    induction ss with
    | nil => intro reg; rfl
    | cons s ss ih =>
      intro reg
      simp only [List.foldl_cons, ih, messageCountOf_registerServiceListeners]
  rw [aux]
  rfl

theorem messageCountOf_applyQueueOp_mono (reg : QueueRegistry) (op : QueueOp) (q : Str)
    (h : messageCountOf reg q ≤ u64MAX) :
    messageCountOf reg q ≤ messageCountOf (applyQueueOp reg op) q ∧
      messageCountOf (applyQueueOp reg op) q ≤ u64MAX := by
  cases op with
  | register q₀ l => simp [applyQueueOp, messageCountOf_registerListener, h]
  | publish q₀ =>
    simp only [applyQueueOp, messageCountOf_prepareDelivery]
    by_cases hq : q₀ = q <;> simp [hq] <;> omega
  | snap => exact ⟨le_refl _, h⟩

theorem messageCountOf_applyQueueOps_mono (ops : List QueueOp) (reg : QueueRegistry)
    (q : Str) (h : messageCountOf reg q ≤ u64MAX) :
    messageCountOf reg q ≤ messageCountOf (applyQueueOps reg ops) q ∧
      messageCountOf (applyQueueOps reg ops) q ≤ u64MAX := by
  induction ops generalizing reg with
  | nil => exact ⟨le_refl _, h⟩
  | cons op ops ih =>
    have step := messageCountOf_applyQueueOp_mono reg op q h
    have rest := ih (applyQueueOp reg op) step.2
    exact ⟨le_trans step.1 rest.1, rest.2⟩

theorem messageCountOf_publishN (reg : QueueRegistry) (q : Str) (n : Nat)
    (h : messageCountOf reg q ≤ u64MAX) :
    messageCountOf (publishN reg q n) q = min (messageCountOf reg q + n) u64MAX := by
  induction n with
  | zero => simp [publishN]; omega
  | succ n ih =>
    simp only [publishN, messageCountOf_prepareDelivery, if_true]
    rw [ih]
    omega

/-! ## Log ring lemmas -/

theorem ringEvict_eq_drop_aux (n : Nat) :
    ∀ l : List Str, l.length ≤ n →
      ringEvict l = l.drop (l.length - MAX_STORED_LOG_LINES) := by
  induction n with
  | zero =>
    intro l hl
    have hnil : l = [] := List.length_eq_zero.mp (Nat.le_zero.mp hl)
    subst hnil
    rw [ringEvict]
    simp [MAX_STORED_LOG_LINES]
  | succ n ih =>
    intro l hl
    rw [ringEvict]
    split
    next h =>
      cases l with
      | nil => simp [MAX_STORED_LOG_LINES] at h
      | cons a t =>
        have ht : t.length ≤ n := by
          simp only [List.length_cons] at hl
          omega
        simp only [List.tail_cons]
        rw [ih t ht]
        simp only [List.length_cons, MAX_STORED_LOG_LINES] at h ⊢
        have harith : t.length + 1 - 200 = (t.length - 200) + 1 := by omega
        rw [harith, List.drop_succ_cons]
    next h =>
      have hz : l.length - MAX_STORED_LOG_LINES = 0 := by
        simp only [MAX_STORED_LOG_LINES, not_lt] at h ⊢
        omega
      rw [hz, List.drop_zero]

theorem applyQueueOps_append (reg : QueueRegistry) (ops₁ ops₂ : List QueueOp) :
    applyQueueOps reg (ops₁ ++ ops₂) = applyQueueOps (applyQueueOps reg ops₁) ops₂ := by
  simp [applyQueueOps, List.foldl_append]

theorem ringEvict_eq_drop (l : List Str) :
    ringEvict l = l.drop (l.length - MAX_STORED_LOG_LINES) :=
  ringEvict_eq_drop_aux l.length l (le_refl _)

theorem foldl_ringPush (xs : List Str) :
    ∀ r : List Str, r.length ≤ MAX_STORED_LOG_LINES →
      xs.foldl ringPush r = (r ++ xs).drop ((r ++ xs).length - MAX_STORED_LOG_LINES) := by
  induction xs with
  | nil =>
    intro r hr
    simp only [List.foldl_nil, List.append_nil]
    have : r.length - MAX_STORED_LOG_LINES = 0 := by omega
    rw [this, List.drop_zero]
  | cons x xs ih =>
    intro r hr
    simp only [List.foldl_cons]
    have hpush : ringPush r x =
        (r ++ [x]).drop ((r ++ [x]).length - MAX_STORED_LOG_LINES) := by
      unfold ringPush
      exact ringEvict_eq_drop (r ++ [x])
    have hlen : (ringPush r x).length ≤ MAX_STORED_LOG_LINES := by
      rw [hpush, List.length_drop]
      simp only [List.length_append, List.length_singleton]
      omega
    rw [ih (ringPush r x) hlen, hpush]
    have hd : (r ++ [x]).length - MAX_STORED_LOG_LINES ≤ (r ++ [x]).length :=
      Nat.sub_le _ _
    rw [← List.drop_append_of_le_length hd]
    rw [List.drop_drop]
    have hassoc : (r ++ [x]) ++ xs = r ++ x :: xs := by simp
    rw [hassoc]
    apply congrArg (fun i => List.drop i (r ++ x :: xs))
    simp only [List.length_drop, List.length_append, List.length_cons,
      List.length_singleton, List.length_nil, MAX_STORED_LOG_LINES]
    omega

/-! ## Claim theorems: queue registry and log ring -/

/-- C4 (amended): publishing `n ≤ u64::MAX` messages to queue `q` on a
freshly initialized registry leaves `message_count(q) = n`; each publish
marks the queue instantiated, bumps the count by one (saturating at
`u64::MAX`), and returns the post-increment count together with the current
subscriber list. -/
theorem C4_publish_count (services : List Service) (q : Str) (n : Nat)
    (h : n ≤ u64MAX) :
    messageCountOf (publishN (initializeQueueRegistry services) q n) q = n ∧
    ∀ (reg : QueueRegistry) (q' : Str),
      (prepareDelivery reg q').1.2 = min (messageCountOf reg q' + 1) u64MAX ∧
      (prepareDelivery reg q').1.1 = subscribersOf reg q' ∧
      instantiatedOf (prepareDelivery reg q').2 q' = true ∧
      messageCountOf (prepareDelivery reg q').2 q' = (prepareDelivery reg q').1.2 := by
  constructor
  · have h0 := messageCountOf_initializeQueueRegistry services q
    rw [messageCountOf_publishN _ _ _ (by rw [h0]; exact Nat.zero_le _), h0]
    omega
  · intro reg q'
    refine ⟨prepareDelivery_returned_count reg q',
      prepareDelivery_returned_subscribers reg q',
      instantiatedOf_prepareDelivery reg q', ?_⟩
    rw [messageCountOf_prepareDelivery, if_pos rfl, prepareDelivery_returned_count]

/-- C4 witness: three publishes on a fresh registry leave the count at 3. -/
theorem C4_publish_count_witness :
    (3 : Nat) ≤ u64MAX ∧
      messageCountOf (publishN (initializeQueueRegistry []) (chars "q") 3)
        (chars "q") = 3 :=
  ⟨by norm_num [u64MAX],
    (C4_publish_count [] (chars "q") 3 (by norm_num [u64MAX])).1⟩

/-- C4 counterexample: with the `saturating_add` of the source, `2^64`
publishes on a fresh registry leave the count at `u64::MAX`, not at
`2^64` — the claim's unrestricted "for every n" fails. -/
theorem C4_publish_count_counterexample :
    messageCountOf (publishN (initializeQueueRegistry []) (chars "q") (2 ^ 64))
      (chars "q") ≠ 2 ^ 64 := by
  have h0 := messageCountOf_initializeQueueRegistry [] (chars "q")
  rw [messageCountOf_publishN _ _ _ (by rw [h0]; exact Nat.zero_le _), h0]
  norm_num [u64MAX]

/-- C10: the message counter update is saturating: along every operation
sequence from an initialized registry the count is monotonically
non-decreasing, a publish sets the count to `min (count + 1) u64::MAX`, and
once the count is `u64::MAX` a further publish leaves it there. -/
theorem C10_monotone_saturating (services : List Service) (ops₁ ops₂ : List QueueOp)
    (q : Str) (reg : QueueRegistry) :
    messageCountOf (applyQueueOps (initializeQueueRegistry services) ops₁) q ≤
      messageCountOf (applyQueueOps (initializeQueueRegistry services) (ops₁ ++ ops₂)) q ∧
    messageCountOf (prepareDelivery reg q).2 q = min (messageCountOf reg q + 1) u64MAX ∧
    (messageCountOf reg q = u64MAX →
      messageCountOf (prepareDelivery reg q).2 q = u64MAX) := by
  refine ⟨?_, ?_, ?_⟩
  · rw [applyQueueOps_append]
    have h0 := messageCountOf_initializeQueueRegistry services q
    have hle := (messageCountOf_applyQueueOps_mono ops₁ (initializeQueueRegistry services)
      q (by rw [h0]; exact Nat.zero_le _)).2
    exact (messageCountOf_applyQueueOps_mono ops₂ _ q hle).1
  · rw [messageCountOf_prepareDelivery, if_pos rfl]
  · intro hmax
    rw [messageCountOf_prepareDelivery, if_pos rfl, hmax]
    omega

/-- C10 witness: a queue whose count is already `u64::MAX` keeps that count
across a further publish. -/
theorem C10_monotone_saturating_witness :
    messageCountOf regSaturated (chars "q") = u64MAX ∧
      messageCountOf (prepareDelivery regSaturated (chars "q")).2 (chars "q") = u64MAX := by
  have h : messageCountOf regSaturated (chars "q") = u64MAX := by
    simp [regSaturated, messageCountOf, findAssoc]
  exact ⟨h, (C10_monotone_saturating [] [] [] (chars "q") regSaturated).2.2 h⟩

/-- C9: after any sequence of pushes the log ring holds the last 200 lines
pushed, in insertion order (the oldest lines beyond the bound are the ones
evicted), and its length never exceeds `MAX_STORED_LOG_LINES = 200`. -/
theorem C9_log_ring_bound (xs : List Str) :
    (xs.foldl ringPush []).length ≤ MAX_STORED_LOG_LINES ∧
      xs.foldl ringPush [] = xs.drop (xs.length - MAX_STORED_LOG_LINES) := by
  have h := foldl_ringPush xs [] (by simp [MAX_STORED_LOG_LINES])
  simp only [List.nil_append] at h
  refine ⟨?_, h⟩
  rw [h, List.length_drop]
  omega

/-! ## Configuration lemmas -/

theorem parseIntervalValue_nat (i : Nat) (h : i ≤ u64MAX) :
    parseIntervalValue (.num i) = .ok i := by
  have h0 : (0 : Int) ≤ (i : Int) := Int.ofNat_nonneg i
  have h1 : (i : Int) ≤ (u64MAX : Int) := by exact_mod_cast h
  simp [parseIntervalValue, Json.asU64, h0, h1]

theorem allocateRunnerPorts_length (scheme : Str) (startPort : Nat) :
    ∀ (count off : Nat) (l : List RunnerUrl),
      allocateRunnerPorts scheme startPort off count = .ok l → l.length = count := by
  intro count
  induction count with
  | zero =>
    intro off l h
    simp [allocateRunnerPorts] at h
    simp [← h]
  | succ n ih =>
    intro off l h
    unfold allocateRunnerPorts at h
    by_cases hp : 65535 < startPort + off
    · rw [if_pos hp] at h
      exact absurd h (by simp)
    · rw [if_neg hp] at h
      cases hrec : allocateRunnerPorts scheme startPort (off + 1) n with
      | ok rest =>
        rw [hrec] at h
        simp only [RRes.ok.injEq] at h
        subst h
        simp [ih (off + 1) rest hrec]
      | err e =>
        rw [hrec] at h
        exact absurd h (by simp)

theorem allocateRunnerPorts_ok (scheme : Str) (startPort : Nat) :
    ∀ (count off : Nat), startPort + off + count ≤ 65536 →
      allocateRunnerPorts scheme startPort off count =
        .ok ((List.range count).map fun j =>
          .portUrl ⟨scheme, some (startPort + off + j)⟩) := by
  intro count
  induction count with
  | zero => intro off _; simp [allocateRunnerPorts]
  | succ n ih =>
    intro off h
    have hmap : (List.range (n + 1)).map
          (fun j => RunnerUrl.portUrl ⟨scheme, some (startPort + off + j)⟩) =
        RunnerUrl.portUrl ⟨scheme, some (startPort + off)⟩ ::
          (List.range n).map
            (fun j => RunnerUrl.portUrl ⟨scheme, some (startPort + (off + 1) + j)⟩) := by
      rw [List.range_succ_eq_map, List.map_cons, List.map_map]
      congr 1
      apply List.map_congr_left
      intro j _
      have harith : startPort + off + (j + 1) = startPort + (off + 1) + j := by omega
      show RunnerUrl.portUrl ⟨scheme, some (startPort + off + (j + 1))⟩ =
        RunnerUrl.portUrl ⟨scheme, some (startPort + (off + 1) + j)⟩
      rw [harith]
    rw [hmap]
    unfold allocateRunnerPorts
    rw [if_neg (by omega), ih (off + 1) (by omega)]

theorem allocateRunnerPorts_err (scheme : Str) (startPort : Nat) :
    ∀ (count off : Nat), 65536 < startPort + off + count → count ≠ 0 →
      ∃ e, allocateRunnerPorts scheme startPort off count = .err e := by
  intro count
  induction count with
  | zero => intro off _ hc; exact absurd rfl hc
  | succ n ih =>
    intro off h _
    unfold allocateRunnerPorts
    by_cases hp : 65535 < startPort + off
    · exact ⟨_, by rw [if_pos hp]⟩
    · rw [if_neg hp]
      have hn : n ≠ 0 := by omega
      obtain ⟨e, he⟩ := ih (off + 1) (by omega) hn
      rw [he]
      exact ⟨e, rfl⟩

/-! ## Claim theorems: configuration -/

/-- C3 (amended): for a loaded service with `runners = n ≥ 1` the produced
list has length `max 1 n`.  When `n > 1` the URL is parsed and the starting
port `p` is `port_or_known_default()` — the explicit port, or the scheme's
known default when the URL has no port; the `i`-th runner URL carries port
`p + i`, so all ports are distinct, at most 65535, and at least 1 whenever
`p ≥ 1`.  The load is rejected when the parse fails, when the parsed URL
yields no port (no explicit port and no known scheme default), or when a
computed port would exceed 65535. -/
theorem C3_runner_urls (rawUrl : Str) (parsed : Option UrlModel) (n : Nat)
    (hn : 0 < n) (hraw : trim rawUrl ≠ []) :
    (∀ urls, buildRunnerUrls rawUrl parsed n = .ok urls → urls.length = max 1 n) ∧
    (∀ u p, 2 ≤ n → parsed = some u → portOrKnownDefault u = some p →
      (p + n ≤ 65536 →
        buildRunnerUrls rawUrl parsed n =
          .ok ((List.range n).map fun j => .portUrl ⟨u.scheme, some (p + j)⟩) ∧
        (∀ x ∈ (List.range n).map (fun j => RunnerUrl.portUrl ⟨u.scheme, some (p + j)⟩),
          ∃ q, x.portOf = some q ∧ q ≤ 65535 ∧ (1 ≤ p → 1 ≤ q)) ∧
        List.Pairwise (fun a b => a.portOf ≠ b.portOf)
          ((List.range n).map fun j => RunnerUrl.portUrl ⟨u.scheme, some (p + j)⟩)) ∧
      (65536 < p + n → ∃ e, buildRunnerUrls rawUrl parsed n = .err e)) ∧
    (2 ≤ n → parsed = none → ∃ e, buildRunnerUrls rawUrl parsed n = .err e) ∧
    (∀ u, 2 ≤ n → parsed = some u → portOrKnownDefault u = none →
      ∃ e, buildRunnerUrls rawUrl parsed n = .err e) := by
  refine ⟨?_, ?_, ?_, ?_⟩
  · intro urls hok
    unfold buildRunnerUrls at hok
    rw [if_neg hraw] at hok
    by_cases h1 : n = 1
    · subst h1
      rw [if_pos rfl] at hok
      simp only [RRes.ok.injEq] at hok
      subst hok
      rfl
    · rw [if_neg h1] at hok
      cases parsed with
      | none => exact absurd hok (by simp)
      | some u =>
        have hok' : (match portOrKnownDefault u with
            | none =>
              RRes.err (chars "must include a port in the URL to run multiple instances")
            | some startPort => allocateRunnerPorts u.scheme startPort 0 n) =
            RRes.ok urls := hok
        cases hp : portOrKnownDefault u with
        | none => rw [hp] at hok'; exact absurd hok' (by simp)
        | some p =>
          rw [hp] at hok'
          rw [allocateRunnerPorts_length u.scheme p n 0 urls hok']
          omega
  · intro u p h2 hpar hp
    subst hpar
    constructor
    · intro hle
      have hok : buildRunnerUrls rawUrl (some u) n =
          .ok ((List.range n).map fun j => .portUrl ⟨u.scheme, some (p + j)⟩) := by
        unfold buildRunnerUrls
        rw [if_neg hraw, if_neg (by omega : ¬ n = 1)]
        show (match portOrKnownDefault u with
          | none => RRes.err (chars "must include a port in the URL to run multiple instances")
          | some startPort => allocateRunnerPorts u.scheme startPort 0 n) = _
        rw [hp]
        have halloc := allocateRunnerPorts_ok u.scheme p n 0 (by omega)
        simp only [Nat.add_zero] at halloc
        exact halloc
      refine ⟨hok, ?_, ?_⟩
      · intro x hx
        simp only [List.mem_map, List.mem_range] at hx
        obtain ⟨j, hj, rfl⟩ := hx
        exact ⟨p + j, rfl, by omega, by omega⟩
      · rw [List.pairwise_map]
        have hpair := List.pairwise_lt_range n
        apply hpair.imp
        intro a b hab
        simp only [RunnerUrl.portOf, ne_eq, Option.some.injEq]
        omega
    · intro hgt
      unfold buildRunnerUrls
      rw [if_neg hraw, if_neg (by omega : ¬ n = 1)]
      show ∃ e, (match portOrKnownDefault u with
        | none => RRes.err (chars "must include a port in the URL to run multiple instances")
        | some startPort => allocateRunnerPorts u.scheme startPort 0 n) = .err e
      rw [hp]
      exact allocateRunnerPorts_err u.scheme p n 0 (by omega) (by omega)
  · intro h2 hpar
    subst hpar
    unfold buildRunnerUrls
    rw [if_neg hraw, if_neg (by omega : ¬ n = 1)]
    exact ⟨_, rfl⟩
  · intro u h2 hpar hp
    subst hpar
    unfold buildRunnerUrls
    rw [if_neg hraw, if_neg (by omega : ¬ n = 1)]
    show ∃ e, (match portOrKnownDefault u with
      | none => RRes.err (chars "must include a port in the URL to run multiple instances")
      | some startPort => allocateRunnerPorts u.scheme startPort 0 n) = .err e
    rw [hp]
    exact ⟨_, rfl⟩

/-- C3 witness: two runners on `http://localhost:19000` produce ports
19000 and 19001. -/
theorem C3_runner_urls_witness :
    buildRunnerUrls (chars "http://localhost:19000")
        (some ⟨chars "http", some 19000⟩) 2 =
      .ok ((List.range 2).map fun j =>
        .portUrl ⟨(⟨chars "http", some 19000⟩ : UrlModel).scheme, some (19000 + j)⟩) :=
  ((C3_runner_urls (chars "http://localhost:19000") (some ⟨chars "http", some 19000⟩) 2
    (by decide) (by decide)).2.1 ⟨chars "http", some 19000⟩ 19000 (by decide) rfl rfl).1
    (by decide) |>.1

/-- C3 counterexample: `http://localhost` has no port, yet two runners are
accepted on ports 80 and 81 (the scheme's known default), and
`http://localhost:0` yields ports 0 and 1, outside `[1, 65535]` — the
claim's "rejected if the url has no port" and "all ports in [1, 65535]"
both fail. -/
theorem C3_runner_urls_counterexample :
    buildRunnerUrls (chars "http://localhost") (some ⟨chars "http", none⟩) 2 =
      .ok [.portUrl ⟨chars "http", some 80⟩, .portUrl ⟨chars "http", some 81⟩] ∧
    buildRunnerUrls (chars "http://localhost:0") (some ⟨chars "http", some 0⟩) 2 =
      .ok [.portUrl ⟨chars "http", some 0⟩, .portUrl ⟨chars "http", some 1⟩] := by
  constructor <;> rfl

/-- C7: a schedule given as the array `[e, i]`, as the object
`{endpoint/path: e, interval_secs/seconds/interval/every_secs: i}`, or as
the single-entry object `{e: i}` (with `e` not a reserved key) parses to
the same raw schedule, and normalization maps all three to the same
`ServiceSchedule` with the trimmed endpoint and interval `i`. -/
theorem C7_schedule_shapes (e : Str) (i : Nat) (ke ki serviceName : Str)
    (allowed : List Str)
    (hi : 0 < i) (hiMax : i ≤ u64MAX)
    (hres : reservedScheduleKey e = false)
    (hke : ke = chars "endpoint" ∨ ke = chars "path")
    (hki : ki = chars "interval_secs" ∨ ki = chars "seconds" ∨ ki = chars "interval" ∨
      ki = chars "every_secs")
    (hne : trimMatches '/' (trim e) ≠ [])
    (hall : trimMatches '/' (trim e) ∈ allowed) :
    parseScheduleEntry (.arr [.str e, .num i]) = .ok ⟨e, i⟩ ∧
    parseScheduleEntry (.obj [(ke, .str e), (ki, .num i)]) = .ok ⟨e, i⟩ ∧
    parseScheduleEntry (.obj [(e, .num i)]) = .ok ⟨e, i⟩ ∧
    normalizeServiceSchedules serviceName allowed [⟨e, i⟩] =
      .ok [⟨trimMatches '/' (trim e), i⟩] := by
  have hint := parseIntervalValue_nat i hiMax
  refine ⟨?_, ?_, ?_, ?_⟩
  · show (match parseIntervalValue (.num i) with
      | .ok intervalSecs => RRes.ok (⟨e, intervalSecs⟩ : RawScheduleConfig)
      | .err er => .err er) = .ok ⟨e, i⟩
    rw [hint]
  · rcases hke with rfl | rfl <;> rcases hki with rfl | rfl | rfl | rfl <;> (
      show (match parseIntervalValue (.num i) with
        | .ok intervalSecs => RRes.ok (⟨e, intervalSecs⟩ : RawScheduleConfig)
        | .err er => .err er) = .ok ⟨e, i⟩
      rw [hint])
  · show (if reservedScheduleKey e then parseScheduleObjectFields [(e, Json.num i)]
      else match parseIntervalValue (.num i) with
        | .ok intervalSecs => RRes.ok (⟨e, intervalSecs⟩ : RawScheduleConfig)
        | .err er => .err er) = .ok ⟨e, i⟩
    rw [hres]
    show (match parseIntervalValue (.num i) with
      | .ok intervalSecs => RRes.ok (⟨e, intervalSecs⟩ : RawScheduleConfig)
      | .err er => .err er) = .ok ⟨e, i⟩
    rw [hint]
  · unfold normalizeServiceSchedules
    rw [if_neg hne, if_neg (by omega : ¬ i = 0), if_pos hall]
    rfl

/-- C7 witness: `["/ping", 30]`, `{"endpoint": "/ping", "seconds": 30}` and
`{"/ping": 30}` all normalize to the schedule `(ping, 30)`. -/
theorem C7_schedule_shapes_witness :
    parseScheduleEntry (.arr [.str (chars "/ping"), .num 30]) =
      .ok ⟨chars "/ping", 30⟩ ∧
    parseScheduleEntry (.obj [(chars "endpoint", .str (chars "/ping")),
      (chars "seconds", .num 30)]) = .ok ⟨chars "/ping", 30⟩ ∧
    parseScheduleEntry (.obj [(chars "/ping", .num 30)]) =
      .ok ⟨chars "/ping", 30⟩ ∧
    normalizeServiceSchedules (chars "svc") [chars "ping"] [⟨chars "/ping", 30⟩] =
      .ok [⟨trimMatches '/' (trim (chars "/ping")), 30⟩] :=
  C7_schedule_shapes (chars "/ping") 30 (chars "endpoint") (chars "seconds")
    (chars "svc") [chars "ping"] (by decide) (by decide) (by decide)
    (Or.inl rfl) (Or.inr (Or.inl rfl)) (by decide) (by decide)

/-- C8: validation rejects `memory_limit_mb = 0` with a message naming the
service and the field, rejects values above `u32::MAX / 16`, and under the
validated bounds `0 < limit ≤ u32::MAX / 16` the page conversion always
returns `some (16 · limit)`. -/
theorem C8_memory_limit (name : Str) (config : RawServiceConfig) (s : Service)
    (hp : trim config.pfx ≠ []) (hu : trim config.url ≠ [])
    (hd : trim config.domain ≠ []) (hr : config.runners ≠ 0) :
    (config.memoryLimitMb = some 0 →
      ∃ msg, validateServiceConfig name config = .err msg ∧
        (chars "memory_limit_mb") <:+: msg ∧ name <:+: msg) ∧
    (∀ l, config.memoryLimitMb = some l → MAX_MEMORY_LIMIT_MB < l →
      ∃ msg, validateServiceConfig name config = .err msg) ∧
    (∀ l, s.memoryLimitMb = some l → 0 < l → l ≤ MAX_MEMORY_LIMIT_MB →
      s.memoryPageLimit = some (16 * l)) := by
  refine ⟨?_, ?_, ?_⟩
  · intro h0
    refine ⟨chars "memory_limit_mb for service '" ++ name ++
      chars "' must be greater than zero", ?_, ?_, ?_⟩
    · unfold validateServiceConfig
      rw [if_neg hp, if_neg hu, if_neg hd, if_neg hr, h0]
      rfl
    · refine ⟨[], chars " for service '" ++ name ++
        chars "' must be greater than zero", ?_⟩
      have hsplit : chars "memory_limit_mb" ++ chars " for service '" =
          chars "memory_limit_mb for service '" := by decide
      simp only [List.nil_append, ← List.append_assoc]
      rw [hsplit]
    · exact ⟨chars "memory_limit_mb for service '",
        chars "' must be greater than zero", rfl⟩
  · intro l hl hgt
    refine ⟨chars "memory_limit_mb for service '" ++ name ++
      chars "' exceeds supported maximum", ?_⟩
    unfold validateServiceConfig
    rw [if_neg hp, if_neg hu, if_neg hd, if_neg hr, hl]
    show (if l = 0 then
        RRes.err (chars "memory_limit_mb for service '" ++ name ++
          chars "' must be greater than zero")
      else if MAX_MEMORY_LIMIT_MB < l then
        RRes.err (chars "memory_limit_mb for service '" ++ name ++
          chars "' exceeds supported maximum")
      else RRes.ok ()) =
      .err (chars "memory_limit_mb for service '" ++ name ++
        chars "' exceeds supported maximum")
    rw [if_neg (by omega : ¬ l = 0), if_pos hgt]
  · intro l hl h0 hle
    have hb : MAX_MEMORY_LIMIT_MB = 268435455 := by norm_num [MAX_MEMORY_LIMIT_MB, u32MAX]
    rw [hb] at hle
    have h1 : l * 16 ≤ u64MAX := by
      have : u64MAX = 18446744073709551615 := by norm_num [u64MAX]
      omega
    have h2 : l * 16 ≤ u32MAX := by
      have : u32MAX = 4294967295 := by norm_num [u32MAX]
      omega
    unfold Service.memoryPageLimit
    rw [hl]
    show (if l * 16 ≤ u64MAX then some (l * 16) else none).bind
      (fun pages => if pages ≤ u32MAX then some pages else none) = some (16 * l)
    rw [if_pos h1]
    show (if l * 16 ≤ u32MAX then some (l * 16) else none) = some (16 * l)
    rw [if_pos h2, Nat.mul_comm]

/-- C8 witness: a config with `memory_limit_mb = 0` is rejected with a
message naming the service and the field, and a 100 MB limit converts to
1600 Wasm pages. -/
theorem C8_memory_limit_witness :
    (∃ msg, validateServiceConfig (chars "svc") cfgZeroLimit = .err msg ∧
      (chars "memory_limit_mb") <:+: msg ∧ (chars "svc") <:+: msg) ∧
    svcMem.memoryPageLimit = some 1600 := by
  have h := C8_memory_limit (chars "svc") cfgZeroLimit svcMem
    (by decide) (by decide) (by decide) (by decide)
  refine ⟨h.1 rfl, ?_⟩
  have hc := h.2.2 100 rfl (by norm_num)
    (by norm_num [MAX_MEMORY_LIMIT_MB, u32MAX])
  simpa using hc

/-! ## Gateway lemmas -/

theorem stripPfx_eq_some {a s r : Str} :
    stripPfx a s = some r ↔ a.isPrefixOf s = true ∧ r = s.drop a.length := by
  unfold stripPfx
  by_cases h : a.isPrefixOf s <;> simp [h, eq_comm]

theorem stripPfx_eq_none {a s : Str} :
    stripPfx a s = none ↔ a.isPrefixOf s = false := by
  unfold stripPfx
  by_cases h : a.isPrefixOf s <;> simp [h]

theorem resolveServiceRoute_isSome (services : List Service) (p : Str) :
    (resolveServiceRoute services p).isSome = true ↔
      ∃ s, s ∈ services ∧ s.pfx.isPrefixOf p = true ∧
        trimStartMatches '/' (p.drop s.pfx.length) ≠ [] := by
  induction services with
  | nil => simp [resolveServiceRoute]
  | cons s rest ih =>
    cases hsp : stripPfx s.pfx p with
    | none =>
      have hnp : s.pfx.isPrefixOf p = false := stripPfx_eq_none.mp hsp
      simp only [resolveServiceRoute, hsp]
      rw [ih]
      constructor
      · rintro ⟨x, hx, hpre, hne⟩
        exact ⟨x, List.mem_cons_of_mem s hx, hpre, hne⟩
      · rintro ⟨x, hx, hpre, hne⟩
        rcases List.mem_cons.mp hx with rfl | hx'
        · rw [hnp] at hpre; cases hpre
        · exact ⟨x, hx', hpre, hne⟩
    | some r =>
      obtain ⟨hpre, hr⟩ := stripPfx_eq_some.mp hsp
      subst hr
      by_cases he : trimStartMatches '/' (p.drop s.pfx.length) = []
      · simp only [resolveServiceRoute, hsp, if_pos he]
        rw [ih]
        constructor
        · rintro ⟨x, hx, hxpre, hne⟩
          exact ⟨x, List.mem_cons_of_mem s hx, hxpre, hne⟩
        · rintro ⟨x, hx, hxpre, hne⟩
          rcases List.mem_cons.mp hx with rfl | hx'
          · exact absurd he hne
          · exact ⟨x, hx', hxpre, hne⟩
      · simp only [resolveServiceRoute, hsp, if_neg he]
        simp only [Option.isSome_some, true_iff]
        exact ⟨s, List.mem_cons_self s rest, hpre, he⟩

theorem resolveServiceRoute_sound (services : List Service) (p : Str) (s : Service)
    (e : Str) (h : resolveServiceRoute services p = some (s, e)) :
    s ∈ services ∧ s.pfx.isPrefixOf p = true ∧
      e = trimStartMatches '/' (p.drop s.pfx.length) ∧ e ≠ [] := by
  induction services with
  | nil => simp [resolveServiceRoute] at h
  | cons s₀ rest ih =>
    cases hsp : stripPfx s₀.pfx p with
    | none =>
      rw [resolveServiceRoute, hsp] at h
      obtain ⟨hm, hrest⟩ := ih h
      exact ⟨List.mem_cons_of_mem s₀ hm, hrest⟩
    | some r =>
      obtain ⟨hpre, hr⟩ := stripPfx_eq_some.mp hsp
      subst hr
      rw [resolveServiceRoute, hsp] at h
      have h' : (if trimStartMatches '/' (p.drop s₀.pfx.length) = [] then
          resolveServiceRoute rest p
        else some (s₀, trimStartMatches '/' (p.drop s₀.pfx.length))) = some (s, e) := h
      by_cases he : trimStartMatches '/' (p.drop s₀.pfx.length) = []
      · rw [if_pos he] at h'
        obtain ⟨hm, hrest⟩ := ih h'
        exact ⟨List.mem_cons_of_mem s₀ hm, hrest⟩
      · rw [if_neg he] at h'
        simp only [Option.some.injEq, Prod.mk.injEq] at h'
        obtain ⟨rfl, rfl⟩ := h'
        exact ⟨List.mem_cons_self s₀ rest, hpre, rfl, he⟩

theorem handleRequest_records_upstream (services : List Service) (method : HttpMethod)
    (url : Str) (upstream : Upstream) :
    (handleRequest services method url upstream).statsRecords = [] ∨
      (handleRequest services method url upstream).upstreamCalled = true := by
  unfold handleRequest
  repeat' split
  all_goals simp

/-! ## Claim theorems: gateway routing -/

/-- C1 (amended): a request is routed to a service exactly when the
service's configured prefix is an initial character run of the trimmed
path (not necessarily a whole first segment) and the remainder stripped of
leading slashes is non-empty; the resolved endpoint is that remainder, and
when no service matches this weaker condition a GET on a non-control path
is answered 404 with no stats recorded.  In particular a path whose first
segment merely begins with a service's prefix can be routed to that
service. -/
theorem C1_route_by_string_pfx (services : List Service) (p : Str) :
    ((resolveServiceRoute services p).isSome = true ↔
      ∃ s, s ∈ services ∧ s.pfx.isPrefixOf p = true ∧
        trimStartMatches '/' (p.drop s.pfx.length) ≠ []) ∧
    (∀ s e, resolveServiceRoute services p = some (s, e) →
      s ∈ services ∧ s.pfx.isPrefixOf p = true ∧
        e = trimStartMatches '/' (p.drop s.pfx.length) ∧ e ≠ []) ∧
    (∀ url upstream, p = trimStartMatches '/' (url.takeWhile (· ≠ '?')) →
      resolveServiceRoute services p = none →
      p ≠ chars "health" → p ≠ [] → p ≠ chars "__runner__/stats" →
      stripPfx (chars "__runner__/services/") p = none →
      handleRequest services .get url upstream = ⟨.notFound, [], false⟩) := by
  refine ⟨resolveServiceRoute_isSome services p,
    fun s e h => resolveServiceRoute_sound services p s e h, ?_⟩
  intro url upstream hp hres h1 h2 h3 h4
  subst hp
  unfold handleRequest
  rw [if_neg (by decide : ¬ (HttpMethod.get = HttpMethod.post))]
  rw [if_neg (by simp : ¬ (HttpMethod.get ≠ HttpMethod.get))]
  rw [if_neg h1, if_neg h2, if_neg h3]
  simp only [h4, hres]

/-- C1 witness: with a service of prefix `svc`, the path `svc/ping`
resolves. -/
theorem C1_route_by_string_pfx_witness :
    (resolveServiceRoute [svcPing] (chars "svc/ping")).isSome = true :=
  (C1_route_by_string_pfx [svcPing] (chars "svc/ping")).1.mpr
    ⟨svcPing, List.mem_cons_self _ _, by decide, by decide⟩

/-- C1 counterexample: prefix `svc`, path `/svcx/ping` — the first segment
`svcx` differs from the prefix, yet the request resolves to the service
(endpoint `x/ping`) and is dispatched upstream, contradicting the claim
that only an exact first-segment match is routed. -/
theorem C1_route_by_string_pfx_counterexample :
    firstSegment (chars "svcx/ping") ≠ svcSliced.pfx ∧
    resolveServiceRoute [svcSliced] (chars "svcx/ping") =
      some (svcSliced, chars "x/ping") ∧
    handleRequest [svcSliced] .get (chars "/svcx/ping") (.ok 200) =
      ⟨.upstreamReply 200, [(chars "svc", chars "x/ping", 200)], true⟩ := by
  refine ⟨by decide, by decide, by decide⟩

/-- C2 (amended): a GET that resolves to a service but whose endpoint is
not in `allowed_get_endpoints` — and a GET on a path no service matches —
is answered 404 with no stats recorded; a POST on a non-control path is
answered 404; any other non-GET method is answered 405 `method not
allowed` (not the 404 the claim states); and a stats entry is recorded
only when the upstream call is actually issued. -/
theorem C2_unrouted_404_no_stats (services : List Service) (url : Str)
    (upstream : Upstream) (tp : Str)
    (htp : tp = trimStartMatches '/' (url.takeWhile (· ≠ '?'))) :
    (∀ s e, tp ≠ chars "health" → tp ≠ [] → tp ≠ chars "__runner__/stats" →
      stripPfx (chars "__runner__/services/") tp = none →
      resolveServiceRoute services tp = some (s, e) →
      s.supports .get e = false →
      handleRequest services .get url upstream = ⟨.notFound, [], false⟩) ∧
    (tp ≠ chars "health" → tp ≠ [] → tp ≠ chars "__runner__/stats" →
      stripPfx (chars "__runner__/services/") tp = none →
      resolveServiceRoute services tp = none →
      handleRequest services .get url upstream = ⟨.notFound, [], false⟩) ∧
    (handleRequest services .other url upstream = ⟨.methodNotAllowed, [], false⟩) ∧
    (stripPfx (chars "__runner__/queues/") tp = none →
      stripPfx (chars "__runner__/services/") tp = none →
      handleRequest services .post url upstream = ⟨.notFound, [], false⟩) ∧
    (∀ method, (handleRequest services method url upstream).statsRecords ≠ [] →
      (handleRequest services method url upstream).upstreamCalled = true) := by
  subst htp
  refine ⟨?_, ?_, ?_, ?_, ?_⟩
  · intro s e h1 h2 h3 h4 h5 hsup
    unfold handleRequest
    rw [if_neg (by decide : ¬ (HttpMethod.get = HttpMethod.post))]
    rw [if_neg (by simp : ¬ (HttpMethod.get ≠ HttpMethod.get))]
    rw [if_neg h1, if_neg h2, if_neg h3]
    simp only [h4, h5, hsup]
    rfl
  · intro h1 h2 h3 h4 h5
    unfold handleRequest
    rw [if_neg (by decide : ¬ (HttpMethod.get = HttpMethod.post))]
    rw [if_neg (by simp : ¬ (HttpMethod.get ≠ HttpMethod.get))]
    rw [if_neg h1, if_neg h2, if_neg h3]
    simp only [h4, h5]
  · unfold handleRequest
    rw [if_neg (by decide : ¬ (HttpMethod.other = HttpMethod.post))]
    rw [if_pos (by decide : HttpMethod.other ≠ HttpMethod.get)]
  · intro hq hs
    unfold handleRequest
    rw [if_pos rfl]
    simp only [hq, hs]
  · intro method h
    rcases handleRequest_records_upstream services method url upstream with h0 | h0
    · exact absurd h0 h
    · exact h0

/-- C2 witness: `GET /svc/pong` on a service whose OpenAPI only declares
`ping` is answered 404 with no stats entry. -/
theorem C2_unrouted_404_no_stats_witness :
    handleRequest [svcPing] .get (chars "/svc/pong") (.ok 200) =
      ⟨.notFound, [], false⟩ :=
  (C2_unrouted_404_no_stats [svcPing] (chars "/svc/pong") (.ok 200)
      (chars "svc/pong") (by decide)).1
    svcPing (chars "pong") (by decide) (by decide) (by decide) (by decide)
    (by decide) (by decide)

/-- C2 counterexample: a `PUT /svc/ping` (any non-GET, non-POST method on a
routed path) is answered 405 `method not allowed`, not the 404 the claim
states. -/
theorem C2_unrouted_404_no_stats_counterexample :
    handleRequest [svcPing] .other (chars "/svc/ping") (.ok 200) =
      ⟨.methodNotAllowed, [], false⟩ ∧
    GatewayReply.methodNotAllowed ≠ GatewayReply.notFound := by
  exact ⟨by decide, by decide⟩

/-! ## Stats store lemmas -/

theorem mem_keys_minuteUpdate (m : MinuteMap) (minute status k : Nat) :
    k ∈ (minuteUpdate m minute status).map Prod.fst ↔
      k = minute ∨ k ∈ m.map Prod.fst := by
  induction m with
  | nil => simp [minuteUpdate]
  | cons kv rest ih =>
    obtain ⟨k₀, counts⟩ := kv
    by_cases h1 : minute < k₀
    · simp [minuteUpdate, h1]
    · by_cases h2 : minute = k₀
      · subst h2
        simp only [minuteUpdate, if_neg h1, if_pos rfl]
        simp
      · simp only [minuteUpdate, if_neg h1, if_neg h2]
        simp [ih]
        tauto

theorem mem_keys_retainFrom (m : MinuteMap) (cutoff k : Nat) :
    k ∈ (retainFrom m cutoff).map Prod.fst ↔
      k ∈ m.map Prod.fst ∧ cutoff ≤ k := by
  unfold retainFrom
  simp only [List.mem_map, List.mem_filter]
  constructor
  · rintro ⟨kv, ⟨hm, hc⟩, rfl⟩
    exact ⟨⟨kv, hm, rfl⟩, by simpa using hc⟩
  · rintro ⟨⟨kv, hm, rfl⟩, hc⟩
    exact ⟨kv, ⟨hm, by simpa using hc⟩, rfl⟩

theorem bucketKeys_statsRecord (d : StatsData) (s e : Str) (st t : Nat)
    (s' e' : Str) (k : Nat) :
    (k ∈ bucketKeys (statsRecord d s e st t) s' e' ↔
      (if s = s' ∧ e = e' then
        (k = t / 60 ∨ k ∈ bucketKeys d s' e') ∧ t / 60 - (MAX_MINUTES - 1) ≤ k
      else k ∈ bucketKeys d s' e')) := by
  unfold bucketKeys statsRecord
  rw [findAssoc_modifyAssoc]
  by_cases hs : s = s'
  · subst hs
    rw [if_pos rfl]
    simp only [Option.getD_some]
    rw [findAssoc_modifyAssoc]
    by_cases he : e = e'
    · subst he
      rw [if_pos (rfl : e = e)]
      simp only [Option.getD_some]
      rw [mem_keys_retainFrom, mem_keys_minuteUpdate]
      simp
    · rw [if_neg he, if_neg (by tauto)]
  · rw [if_neg hs, if_neg (by tauto)]

theorem stats_window_aux (ops : List RecOp) :
    ∀ (d : StatsData) (M : Nat),
    (∀ s e k, k ∈ bucketKeys d s e → k ≤ M) →
    (∀ s e k₁ k₂, k₁ ∈ bucketKeys d s e → k₂ ∈ bucketKeys d s e →
      k₂ - k₁ ≤ MAX_MINUTES - 1) →
    (∀ op ∈ ops, M ≤ op.time / 60) →
    ops.Pairwise (fun a b => a.time ≤ b.time) →
    ∀ s e k₁ k₂,
      k₁ ∈ bucketKeys (ops.foldl
        (fun d op => statsRecord d op.service op.endpoint op.status op.time) d) s e →
      k₂ ∈ bucketKeys (ops.foldl
        (fun d op => statsRecord d op.service op.endpoint op.status op.time) d) s e →
      k₂ - k₁ ≤ MAX_MINUTES - 1 := by
  induction ops with
  | nil =>
    intro d M _ hwin _ _
    exact hwin
  | cons op ops ih =>
    intro d M hle hwin hops hpair
    simp only [List.foldl_cons]
    obtain ⟨hhead, htail⟩ := List.pairwise_cons.mp hpair
    have hM : M ≤ op.time / 60 := hops op (List.mem_cons_self _ _)
    apply ih (statsRecord d op.service op.endpoint op.status op.time) (op.time / 60)
    · intro s e k hk
      rw [bucketKeys_statsRecord] at hk
      by_cases hcond : op.service = s ∧ op.endpoint = e
      · rw [if_pos hcond] at hk
        rcases hk.1 with rfl | hold
        · exact le_refl _
        · exact le_trans (hle s e k hold) hM
      · rw [if_neg hcond] at hk
        exact le_trans (hle s e k hk) hM
    · intro s e k₁ k₂ h₁ h₂
      rw [bucketKeys_statsRecord] at h₁ h₂
      by_cases hcond : op.service = s ∧ op.endpoint = e
      · rw [if_pos hcond] at h₁ h₂
        have b₁ := h₁.2
        have u₂ : k₂ ≤ op.time / 60 := by
          rcases h₂.1 with rfl | hold
          · exact le_refl _
          · exact le_trans (hle s e k₂ hold) hM
        omega
      · rw [if_neg hcond] at h₁ h₂
        exact hwin s e k₁ k₂ h₁ h₂
    · intro b hb
      exact Nat.div_le_div_right (hhead b hb)
    · exact htail

/-! ## Claim theorems: stats store -/

/-- C5 (amended): a record at time `t` increments the bucket of minute
`t / 60` and evicts this endpoint's minute keys below `t/60 − 59`; when
the recorded timestamps are non-decreasing, every `(service, endpoint)`
bucket map keeps its youngest key within 59 of its oldest.  (With
timestamps allowed to go backwards the bound fails, see the
counterexample.) -/
theorem C5_stats_window (ops : List RecOp)
    (hmono : ops.Pairwise (fun a b => a.time ≤ b.time)) :
    (∀ (d : StatsData) (s e : Str) (st t k : Nat),
      (k ∈ bucketKeys (statsRecord d s e st t) s e ↔
        (k = t / 60 ∨ k ∈ bucketKeys d s e) ∧ t / 60 - (MAX_MINUTES - 1) ≤ k)) ∧
    (∀ s e k₁ k₂, k₁ ∈ bucketKeys (applyRecords ops) s e →
      k₂ ∈ bucketKeys (applyRecords ops) s e → k₂ - k₁ ≤ MAX_MINUTES - 1) := by
  constructor
  · intro d s e st t k
    have h := bucketKeys_statsRecord d s e st t s e k
    rw [if_pos ⟨rfl, rfl⟩] at h
    exact h
  · intro s e k₁ k₂ h₁ h₂
    exact stats_window_aux ops [] 0
      (by intro s e k hk; simp [bucketKeys, findAssoc] at hk)
      (by intro s e k₁ k₂ hk; simp [bucketKeys, findAssoc] at hk)
      (fun _ _ => Nat.zero_le _) hmono s e k₁ k₂ h₁ h₂

/-- C5 witness: records at minutes 0 and 1 (in order) leave a bucket whose
keys 0 and 1 are within the 59-minute window. -/
theorem C5_stats_window_witness :
    (0 : Nat) ∈ bucketKeys (applyRecords [⟨chars "s", chars "e", 200, 0⟩,
      ⟨chars "s", chars "e", 200, 60⟩]) (chars "s") (chars "e") ∧
    (1 : Nat) ∈ bucketKeys (applyRecords [⟨chars "s", chars "e", 200, 0⟩,
      ⟨chars "s", chars "e", 200, 60⟩]) (chars "s") (chars "e") ∧
    1 - 0 ≤ MAX_MINUTES - 1 :=
  ⟨by decide, by decide,
    (C5_stats_window [⟨chars "s", chars "e", 200, 0⟩,
        ⟨chars "s", chars "e", 200, 60⟩] (by decide)).2
      (chars "s") (chars "e") 0 1 (by decide) (by decide)⟩

/-- C5 counterexample: recording at minute 100 and then at minute 0 (the
timestamp moved backwards) leaves bucket keys 0 and 100, whose spread 100
exceeds 59 — the claim's "after any sequence of record operations" fails;
eviction uses the cutoff of the newly recorded minute only. -/
theorem C5_stats_window_counterexample :
    (100 : Nat) ∈ bucketKeys (applyRecords [⟨chars "s", chars "e", 200, 6000⟩,
      ⟨chars "s", chars "e", 200, 0⟩]) (chars "s") (chars "e") ∧
    (0 : Nat) ∈ bucketKeys (applyRecords [⟨chars "s", chars "e", 200, 6000⟩,
      ⟨chars "s", chars "e", 200, 0⟩]) (chars "s") (chars "e") ∧
    ¬ (100 - 0 ≤ MAX_MINUTES - 1) := by
  refine ⟨by decide, by decide, by decide⟩

/-! ## Snapshot lemmas: status-count maps -/

theorem countIn_eq_zero_of_not_mem (counts : StatusCounts) (s : Nat)
    (h : s ∉ counts.map Prod.fst) : countIn counts s = 0 := by
  induction counts with
  | nil => rfl
  | cons p rest ih =>
    simp only [List.map_cons, List.mem_cons] at h
    push_neg at h
    unfold countIn
    rw [List.find?_cons_of_neg]
    · exact ih h.2
    · simp [Ne.symm h.1]

theorem bucketContrib_eq_zero_of_not_mem (counts : StatusCounts) (s : Nat)
    (h : s ∉ counts.map Prod.fst) : bucketContrib counts s = 0 := by
  induction counts with
  | nil => rfl
  | cons p rest ih =>
    simp only [List.map_cons, List.mem_cons] at h
    push_neg at h
    simp only [bucketContrib, List.map_cons, List.sum_cons, if_neg (Ne.symm h.1)]
    rw [Nat.zero_add]
    exact ih h.2

theorem bucketContrib_eq_countIn (counts : StatusCounts) (s : Nat)
    (h : (counts.map Prod.fst).Nodup) : bucketContrib counts s = countIn counts s := by
  induction counts with
  | nil => rfl
  | cons p rest ih =>
    simp only [List.map_cons, List.nodup_cons] at h
    by_cases hs : p.1 = s
    · subst hs
      simp only [bucketContrib, List.map_cons, List.sum_cons, if_pos rfl]
      rw [show (rest.map fun q => if q.1 = p.1 then q.2 else 0).sum =
          bucketContrib rest p.1 from rfl]
      rw [bucketContrib_eq_zero_of_not_mem rest p.1 h.1]
      unfold countIn
      rw [List.find?_cons_of_pos]
      · simp
      · simp
    · simp only [bucketContrib, List.map_cons, List.sum_cons, if_neg hs, Nat.zero_add]
      rw [show (rest.map fun q => if q.1 = s then q.2 else 0).sum =
          bucketContrib rest s from rfl, ih h.2]
      unfold countIn
      rw [List.find?_cons_of_neg _ (by simp [hs])]

theorem countIn_cons_self (s c : Nat) (rest : StatusCounts) :
    countIn ((s, c) :: rest) s = c := by
  unfold countIn
  rw [List.find?_cons_of_pos] <;> simp

theorem countIn_cons_ne (s₀ c₀ s : Nat) (rest : StatusCounts) (h : s₀ ≠ s) :
    countIn ((s₀, c₀) :: rest) s = countIn rest s := by
  unfold countIn
  rw [List.find?_cons_of_neg]
  simp [h]

theorem countIn_orderedBump (counts : StatusCounts) (st c s : Nat)
    (hs : List.Pairwise (fun a b => a.1 < b.1) counts) :
    countIn (orderedBump counts st c) s =
      countIn counts s + (if st = s then c else 0) := by
  induction counts with
  | nil =>
    by_cases h : st = s
    · subst h; simp [orderedBump, countIn_cons_self, countIn]
    · simp [orderedBump, countIn_cons_ne _ _ _ _ h, countIn, h]
  | cons p rest ih =>
    obtain ⟨s₀, c₀⟩ := p
    obtain ⟨hhead, htail⟩ := List.pairwise_cons.mp hs
    by_cases h1 : st < s₀
    · rw [show orderedBump ((s₀, c₀) :: rest) st c =
        (st, c) :: (s₀, c₀) :: rest from by simp [orderedBump, h1]]
      by_cases h : st = s
      · subst h
        rw [countIn_cons_self]
        have hnm : st ∉ ((s₀, c₀) :: rest).map Prod.fst := by
          simp only [List.map_cons, List.mem_cons]
          push_neg
          refine ⟨by omega, ?_⟩
          intro hmem
          simp only [List.mem_map] at hmem
          obtain ⟨q, hq, hqe⟩ := hmem
          have := hhead q hq
          omega
        rw [countIn_eq_zero_of_not_mem _ _ hnm]
        simp
      · rw [countIn_cons_ne _ _ _ _ h, if_neg h]
        omega
    · by_cases h2 : st = s₀
      · subst h2
        rw [show orderedBump ((st, c₀) :: rest) st c =
          (st, c₀ + c) :: rest from by simp [orderedBump, h1]]
        by_cases h : st = s
        · subst h
          rw [countIn_cons_self, countIn_cons_self, if_pos rfl]
        · rw [countIn_cons_ne _ _ _ _ h, countIn_cons_ne _ _ _ _ h, if_neg h]
          omega
      · rw [show orderedBump ((s₀, c₀) :: rest) st c =
          (s₀, c₀) :: orderedBump rest st c from by simp [orderedBump, h1, h2]]
        by_cases h : s₀ = s
        · subst h
          rw [countIn_cons_self, countIn_cons_self, if_neg h2]
          omega
        · rw [countIn_cons_ne _ _ _ _ h, countIn_cons_ne _ _ _ _ h, ih htail]

theorem mem_keys_orderedBump (counts : StatusCounts) (st c k : Nat) :
    k ∈ (orderedBump counts st c).map Prod.fst ↔
      k = st ∨ k ∈ counts.map Prod.fst := by
  induction counts with
  | nil => simp [orderedBump]
  | cons p rest ih =>
    obtain ⟨s₀, c₀⟩ := p
    by_cases h1 : st < s₀
    · simp [orderedBump, h1]
    · by_cases h2 : st = s₀
      · subst h2
        rw [show orderedBump ((st, c₀) :: rest) st c = (st, c₀ + c) :: rest from by
          simp [orderedBump, h1]]
        simp
      · rw [show orderedBump ((s₀, c₀) :: rest) st c =
          (s₀, c₀) :: orderedBump rest st c from by simp [orderedBump, h1, h2]]
        simp [ih]
        tauto

theorem pairwise_orderedBump (counts : StatusCounts) (st c : Nat)
    (hs : List.Pairwise (fun a b => a.1 < b.1) counts) :
    List.Pairwise (fun a b => a.1 < b.1) (orderedBump counts st c) := by
  induction counts with
  | nil => simp [orderedBump]
  | cons p rest ih =>
    obtain ⟨s₀, c₀⟩ := p
    obtain ⟨hhead, htail⟩ := List.pairwise_cons.mp hs
    by_cases h1 : st < s₀
    · rw [show orderedBump ((s₀, c₀) :: rest) st c =
        (st, c) :: (s₀, c₀) :: rest from by simp [orderedBump, h1]]
      refine List.pairwise_cons.mpr ⟨?_, hs⟩
      intro q hq
      rcases List.mem_cons.mp hq with rfl | hq'
      · exact h1
      · have := hhead q hq'
        omega
    · by_cases h2 : st = s₀
      · subst h2
        rw [show orderedBump ((st, c₀) :: rest) st c = (st, c₀ + c) :: rest from by
          simp [orderedBump, h1]]
        exact List.pairwise_cons.mpr ⟨hhead, htail⟩
      · rw [show orderedBump ((s₀, c₀) :: rest) st c =
          (s₀, c₀) :: orderedBump rest st c from by simp [orderedBump, h1, h2]]
        refine List.pairwise_cons.mpr ⟨?_, ih htail⟩
        intro q hq
        have hq' : q.1 ∈ (orderedBump rest st c).map Prod.fst := List.mem_map_of_mem _ hq
        rw [mem_keys_orderedBump] at hq'
        rcases hq' with rfl | hmem
        · omega
        · simp only [List.mem_map] at hmem
          obtain ⟨q', hq'', hqe⟩ := hmem
          have := hhead q' hq''
          omega

theorem findAssoc_eq_none {κ β : Type} [DecidableEq κ] (l : List (κ × β)) (k : κ)
    (h : k ∉ l.map Prod.fst) : findAssoc l k = none := by
  induction l with
  | nil => rfl
  | cons p rest ih =>
    simp only [List.map_cons, List.mem_cons] at h
    push_neg at h
    unfold findAssoc
    rw [if_neg (Ne.symm h.1)]
    exact ih h.2

theorem countIn_orderedInsertPair (counts : StatusCounts) (st c s : Nat)
    (hs : List.Pairwise (fun a b => a.1 < b.1) counts) :
    countIn (orderedInsertPair counts st c) s =
      if st = s then c else countIn counts s := by
  induction counts with
  | nil =>
    by_cases h : st = s
    · subst h; rw [show orderedInsertPair [] st c = [(st, c)] from rfl,
        countIn_cons_self, if_pos rfl]
    · rw [show orderedInsertPair [] st c = [(st, c)] from rfl,
        countIn_cons_ne _ _ _ _ h, if_neg h]
  | cons p rest ih =>
    obtain ⟨s₀, c₀⟩ := p
    obtain ⟨hhead, htail⟩ := List.pairwise_cons.mp hs
    by_cases h1 : st < s₀
    · rw [show orderedInsertPair ((s₀, c₀) :: rest) st c =
        (st, c) :: (s₀, c₀) :: rest from by simp [orderedInsertPair, h1]]
      by_cases h : st = s
      · subst h; rw [countIn_cons_self, if_pos rfl]
      · rw [countIn_cons_ne _ _ _ _ h, if_neg h]
    · by_cases h2 : st = s₀
      · subst h2
        rw [show orderedInsertPair ((st, c₀) :: rest) st c = (st, c) :: rest from by
          simp [orderedInsertPair, h1]]
        by_cases h : st = s
        · subst h; rw [countIn_cons_self, if_pos rfl]
        · rw [countIn_cons_ne _ _ _ _ h, countIn_cons_ne _ _ _ _ h, if_neg h]
      · rw [show orderedInsertPair ((s₀, c₀) :: rest) st c =
          (s₀, c₀) :: orderedInsertPair rest st c from by simp [orderedInsertPair, h1, h2]]
        by_cases h : s₀ = s
        · subst h
          rw [countIn_cons_self, countIn_cons_self, if_neg h2]
        · rw [countIn_cons_ne _ _ _ _ h, countIn_cons_ne _ _ _ _ h, ih htail]

theorem mem_keys_orderedInsertPair (counts : StatusCounts) (st c k : Nat) :
    k ∈ (orderedInsertPair counts st c).map Prod.fst ↔
      k = st ∨ k ∈ counts.map Prod.fst := by
  induction counts with
  | nil => simp [orderedInsertPair]
  | cons p rest ih =>
    obtain ⟨s₀, c₀⟩ := p
    by_cases h1 : st < s₀
    · simp [orderedInsertPair, h1]
    · by_cases h2 : st = s₀
      · subst h2
        rw [show orderedInsertPair ((st, c₀) :: rest) st c = (st, c) :: rest from by
          simp [orderedInsertPair, h1]]
        simp
      · rw [show orderedInsertPair ((s₀, c₀) :: rest) st c =
          (s₀, c₀) :: orderedInsertPair rest st c from by simp [orderedInsertPair, h1, h2]]
        simp [ih]
        tauto

theorem pairwise_orderedInsertPair (counts : StatusCounts) (st c : Nat)
    (hs : List.Pairwise (fun a b => a.1 < b.1) counts) :
    List.Pairwise (fun a b => a.1 < b.1) (orderedInsertPair counts st c) := by
  induction counts with
  | nil => simp [orderedInsertPair]
  | cons p rest ih =>
    obtain ⟨s₀, c₀⟩ := p
    obtain ⟨hhead, htail⟩ := List.pairwise_cons.mp hs
    by_cases h1 : st < s₀
    · rw [show orderedInsertPair ((s₀, c₀) :: rest) st c =
        (st, c) :: (s₀, c₀) :: rest from by simp [orderedInsertPair, h1]]
      refine List.pairwise_cons.mpr ⟨?_, hs⟩
      intro q hq
      rcases List.mem_cons.mp hq with rfl | hq'
      · exact h1
      · have := hhead q hq'
        omega
    · by_cases h2 : st = s₀
      · subst h2
        rw [show orderedInsertPair ((st, c₀) :: rest) st c = (st, c) :: rest from by
          simp [orderedInsertPair, h1]]
        exact List.pairwise_cons.mpr ⟨hhead, htail⟩
      · rw [show orderedInsertPair ((s₀, c₀) :: rest) st c =
          (s₀, c₀) :: orderedInsertPair rest st c from by simp [orderedInsertPair, h1, h2]]
        refine List.pairwise_cons.mpr ⟨?_, ih htail⟩
        intro q hq
        have hq' : q.1 ∈ (orderedInsertPair rest st c).map Prod.fst :=
          List.mem_map_of_mem _ hq
        rw [mem_keys_orderedInsertPair] at hq'
        rcases hq' with rfl | hmem
        · omega
        · simp only [List.mem_map] at hmem
          obtain ⟨q', hq'', hqe⟩ := hmem
          have := hhead q' hq''
          omega

theorem countIn_foldIns (counts : StatusCounts) :
    ∀ (acc : List (Nat × Nat)) (s : Nat),
      List.Pairwise (fun a b => a.1 < b.1) acc →
      (∀ k ∈ counts.map Prod.fst, k ∉ acc.map Prod.fst) →
      (counts.map Prod.fst).Nodup →
      countIn (counts.foldl (fun a p => orderedInsertPair a p.1 p.2) acc) s =
        countIn acc s + bucketContrib counts s := by
  induction counts with
  | nil =>
    intro acc s _ _ _
    simp [bucketContrib]
  | cons p rest ih =>
    intro acc s hacc hdisj hnd
    obtain ⟨st, c⟩ := p
    simp only [List.map_cons, List.nodup_cons] at hnd
    simp only [List.foldl_cons]
    have hacc' : List.Pairwise (fun a b => a.1 < b.1) (orderedInsertPair acc st c) :=
      pairwise_orderedInsertPair acc st c hacc
    have hdisj' : ∀ k ∈ rest.map Prod.fst, k ∉ (orderedInsertPair acc st c).map Prod.fst := by
      intro k hk
      rw [mem_keys_orderedInsertPair]
      push_neg
      refine ⟨?_, ?_⟩
      · intro he
        exact hnd.1 (he ▸ hk)
      · exact hdisj k (by simp [hk])
    rw [ih (orderedInsertPair acc st c) s hacc' hdisj' hnd.2]
    rw [countIn_orderedInsertPair acc st c s hacc]
    simp only [bucketContrib, List.map_cons, List.sum_cons]
    by_cases h : st = s
    · subst h
      rw [if_pos rfl, if_pos rfl]
      have hz : countIn acc st = 0 :=
        countIn_eq_zero_of_not_mem acc st (hdisj st (by simp))
      rw [show (rest.map fun q => if q.1 = st then q.2 else 0).sum =
          bucketContrib rest st from rfl]
      rw [bucketContrib_eq_zero_of_not_mem rest st hnd.1]
      omega
    · rw [if_neg h, if_neg h]
      omega

theorem countIn_sortedCountsOf (counts : StatusCounts) (s : Nat)
    (hnd : (counts.map Prod.fst).Nodup) :
    countIn (sortedCountsOf counts) s = bucketContrib counts s := by
  unfold sortedCountsOf
  rw [countIn_foldIns counts [] s (by simp) (by simp) hnd]
  simp [countIn]

theorem mem_keys_globalAdd (gm : GlobalMap) (minute st c k : Nat) :
    k ∈ (globalAdd gm minute st c).map Prod.fst ↔
      k = minute ∨ k ∈ gm.map Prod.fst := by
  induction gm with
  | nil => simp [globalAdd]
  | cons p rest ih =>
    obtain ⟨k₀, counts₀⟩ := p
    by_cases h1 : minute < k₀
    · simp [globalAdd, h1]
    · by_cases h2 : minute = k₀
      · subst h2
        rw [show globalAdd ((minute, counts₀) :: rest) minute st c =
          (minute, orderedBump counts₀ st c) :: rest from by simp [globalAdd, h1]]
        simp
      · rw [show globalAdd ((k₀, counts₀) :: rest) minute st c =
          (k₀, counts₀) :: globalAdd rest minute st c from by simp [globalAdd, h1, h2]]
        simp [ih]
        tauto

theorem globalAdd_wf (gm : GlobalMap) (minute st c : Nat) (h : GlobalWF gm) :
    GlobalWF (globalAdd gm minute st c) := by
  induction gm with
  | nil =>
    refine ⟨by simp [globalAdd], ?_⟩
    intro entry hm
    simp only [globalAdd, List.mem_singleton] at hm
    subst hm
    exact pairwise_orderedBump [] st c (by simp)
  | cons p rest ih =>
    obtain ⟨k₀, counts₀⟩ := p
    obtain ⟨houter, hinner⟩ := h
    obtain ⟨hhead, htail⟩ := List.pairwise_cons.mp houter
    have hrest : GlobalWF rest :=
      ⟨htail, fun entry hm => hinner entry (List.mem_cons_of_mem _ hm)⟩
    by_cases h1 : minute < k₀
    · rw [show globalAdd ((k₀, counts₀) :: rest) minute st c =
        (minute, orderedBump [] st c) :: (k₀, counts₀) :: rest from by
          simp [globalAdd, h1]]
      refine ⟨?_, ?_⟩
      · refine List.pairwise_cons.mpr ⟨?_, houter⟩
        intro q hq
        rcases List.mem_cons.mp hq with rfl | hq'
        · exact h1
        · have := hhead q hq'
          omega
      · intro entry hm
        rcases List.mem_cons.mp hm with rfl | hm'
        · exact pairwise_orderedBump [] st c (by simp)
        · exact hinner entry hm'
    · by_cases h2 : minute = k₀
      · subst h2
        rw [show globalAdd ((minute, counts₀) :: rest) minute st c =
          (minute, orderedBump counts₀ st c) :: rest from by simp [globalAdd, h1]]
        refine ⟨List.pairwise_cons.mpr ⟨hhead, htail⟩, ?_⟩
        intro entry hm
        rcases List.mem_cons.mp hm with rfl | hm'
        · exact pairwise_orderedBump counts₀ st c
            (hinner (minute, counts₀) (List.mem_cons_self _ _))
        · exact hinner entry (List.mem_cons_of_mem _ hm')
      · rw [show globalAdd ((k₀, counts₀) :: rest) minute st c =
          (k₀, counts₀) :: globalAdd rest minute st c from by simp [globalAdd, h1, h2]]
        obtain ⟨ho', hi'⟩ := ih hrest
        refine ⟨?_, ?_⟩
        · refine List.pairwise_cons.mpr ⟨?_, ho'⟩
          intro q hq
          have hq' : q.1 ∈ (globalAdd rest minute st c).map Prod.fst :=
            List.mem_map_of_mem _ hq
          rw [mem_keys_globalAdd] at hq'
          rcases hq' with rfl | hmem
          · omega
          · simp only [List.mem_map] at hmem
            obtain ⟨q', hq'', hqe⟩ := hmem
            have := hhead q' hq''
            omega
        · intro entry hm
          rcases List.mem_cons.mp hm with rfl | hm'
          · exact hinner (k₀, counts₀) (List.mem_cons_self _ _)
          · exact hi' entry hm'

theorem gmCount_globalAdd (gm : GlobalMap) (minute st c m s : Nat) (h : GlobalWF gm) :
    gmCount (globalAdd gm minute st c) m s =
      gmCount gm m s + (if minute = m ∧ st = s then c else 0) := by
  induction gm with
  | nil =>
    unfold gmCount
    by_cases hm : minute = m
    · subst hm
      rw [show globalAdd [] minute st c = [(minute, orderedBump [] st c)] from rfl]
      rw [show findAssoc [(minute, orderedBump [] st c)] minute =
        some (orderedBump [] st c) from by simp [findAssoc]]
      simp only [Option.getD_some]
      rw [countIn_orderedBump [] st c s (by simp)]
      simp [findAssoc, countIn]
    · rw [show globalAdd [] minute st c = [(minute, orderedBump [] st c)] from rfl]
      rw [show findAssoc [(minute, orderedBump [] st c)] m = none from by
        simp [findAssoc, hm]]
      simp [findAssoc, hm, countIn]
  | cons p rest ih =>
    obtain ⟨k₀, counts₀⟩ := p
    obtain ⟨houter, hinner⟩ := h
    obtain ⟨hhead, htail⟩ := List.pairwise_cons.mp houter
    have hrest : GlobalWF rest :=
      ⟨htail, fun entry hm => hinner entry (List.mem_cons_of_mem _ hm)⟩
    by_cases h1 : minute < k₀
    · rw [show globalAdd ((k₀, counts₀) :: rest) minute st c =
        (minute, orderedBump [] st c) :: (k₀, counts₀) :: rest from by
          simp [globalAdd, h1]]
      unfold gmCount
      by_cases hm : minute = m
      · subst hm
        rw [show findAssoc ((minute, orderedBump [] st c) :: (k₀, counts₀) :: rest)
            minute = some (orderedBump [] st c) from by simp [findAssoc]]
        have hnone : findAssoc ((k₀, counts₀) :: rest) minute = none := by
          apply findAssoc_eq_none
          simp only [List.map_cons, List.mem_cons]
          push_neg
          refine ⟨by omega, ?_⟩
          intro hmem
          simp only [List.mem_map] at hmem
          obtain ⟨q, hq, hqe⟩ := hmem
          have := hhead q hq
          omega
        rw [hnone]
        simp only [Option.getD_some, Option.getD_none]
        rw [countIn_orderedBump [] st c s (by simp)]
        simp [countIn]
      · rw [show findAssoc ((minute, orderedBump [] st c) :: (k₀, counts₀) :: rest) m =
          findAssoc ((k₀, counts₀) :: rest) m from by simp [findAssoc, hm]]
        simp [hm]
    · by_cases h2 : minute = k₀
      · subst h2
        rw [show globalAdd ((minute, counts₀) :: rest) minute st c =
          (minute, orderedBump counts₀ st c) :: rest from by simp [globalAdd, h1]]
        unfold gmCount
        by_cases hm : minute = m
        · subst hm
          rw [show findAssoc ((minute, orderedBump counts₀ st c) :: rest) minute =
            some (orderedBump counts₀ st c) from by simp [findAssoc]]
          rw [show findAssoc ((minute, counts₀) :: rest) minute = some counts₀ from by
            simp [findAssoc]]
          simp only [Option.getD_some]
          rw [countIn_orderedBump counts₀ st c s
            (hinner (minute, counts₀) (List.mem_cons_self _ _))]
          simp
        · rw [show findAssoc ((minute, orderedBump counts₀ st c) :: rest) m =
            findAssoc rest m from by simp [findAssoc, hm]]
          rw [show findAssoc ((minute, counts₀) :: rest) m =
            findAssoc rest m from by simp [findAssoc, hm]]
          simp [hm]
      · rw [show globalAdd ((k₀, counts₀) :: rest) minute st c =
          (k₀, counts₀) :: globalAdd rest minute st c from by simp [globalAdd, h1, h2]]
        unfold gmCount
        by_cases hm : k₀ = m
        · subst hm
          rw [show findAssoc ((k₀, counts₀) :: globalAdd rest minute st c) k₀ =
            some counts₀ from by simp [findAssoc]]
          rw [show findAssoc ((k₀, counts₀) :: rest) k₀ = some counts₀ from by
            simp [findAssoc]]
          have : ¬ (minute = k₀ ∧ st = s) := fun hc => h2 hc.1
          simp [this]
        · rw [show findAssoc ((k₀, counts₀) :: globalAdd rest minute st c) m =
            findAssoc (globalAdd rest minute st c) m from by simp [findAssoc, hm]]
          rw [show findAssoc ((k₀, counts₀) :: rest) m =
            findAssoc rest m from by simp [findAssoc, hm]]
          exact ih hrest

theorem processBucket_fold (minute : Nat) (counts : StatusCounts) :
    ∀ (sAcc : List (Nat × Nat)) (gm : GlobalMap),
      counts.foldl
        (fun acc entry =>
          (orderedInsertPair acc.1 entry.1 entry.2, globalAdd acc.2 minute entry.1 entry.2))
        (sAcc, gm) =
      (counts.foldl (fun a p => orderedInsertPair a p.1 p.2) sAcc,
        counts.foldl (fun g p => globalAdd g minute p.1 p.2) gm) := by
  induction counts with
  | nil => intro sAcc gm; rfl
  | cons p rest ih =>
    intro sAcc gm
    simp only [List.foldl_cons]
    exact ih _ _

theorem processBucket_eq (gm : GlobalMap) (minute : Nat) (counts : StatusCounts) :
    processBucket gm minute counts =
      (sortedCountsOf counts,
        counts.foldl (fun g p => globalAdd g minute p.1 p.2) gm) := by
  unfold processBucket sortedCountsOf
  exact processBucket_fold minute counts [] gm

theorem globalBucketFold (minute : Nat) (counts : StatusCounts) :
    ∀ gm : GlobalMap, GlobalWF gm →
      GlobalWF (counts.foldl (fun g p => globalAdd g minute p.1 p.2) gm) ∧
      ∀ m s, gmCount (counts.foldl (fun g p => globalAdd g minute p.1 p.2) gm) m s =
        gmCount gm m s + (if minute = m then bucketContrib counts s else 0) := by
  induction counts with
  | nil =>
    intro gm hwf
    refine ⟨hwf, ?_⟩
    intro m s
    simp [bucketContrib]
  | cons p rest ih =>
    intro gm hwf
    simp only [List.foldl_cons]
    obtain ⟨hwf', hcount'⟩ := ih (globalAdd gm minute p.1 p.2) (globalAdd_wf gm minute p.1 p.2 hwf)
    refine ⟨hwf', ?_⟩
    intro m s
    rw [hcount', gmCount_globalAdd gm minute p.1 p.2 m s hwf]
    simp only [bucketContrib, List.map_cons, List.sum_cons]
    rw [show (rest.map fun q => if q.1 = s then q.2 else 0).sum =
      bucketContrib rest s from rfl]
    by_cases hm : minute = m
    · subst hm
      by_cases hst : p.1 = s
      · simp [hst]
        omega
      · simp [hst]
    · simp [hm]

theorem processEndpoint_fold (mm : MinuteMap) :
    ∀ (aAcc : List MinuteAggregate) (gm : GlobalMap),
      mm.foldl
        (fun acc bucket =>
          (acc.1 ++ [⟨bucket.1, (processBucket acc.2 bucket.1 bucket.2).1⟩],
            (processBucket acc.2 bucket.1 bucket.2).2))
        (aAcc, gm) =
      (aAcc ++ mm.map (fun b => ⟨b.1, sortedCountsOf b.2⟩),
        mm.foldl (fun g b => b.2.foldl (fun g' p => globalAdd g' b.1 p.1 p.2) g) gm) := by
  induction mm with
  | nil => intro aAcc gm; simp
  | cons b rest ih =>
    intro aAcc gm
    rw [List.foldl_cons]
    show List.foldl _
      (aAcc ++ [⟨b.1, (processBucket gm b.1 b.2).1⟩], (processBucket gm b.1 b.2).2) rest = _
    rw [processBucket_eq]
    rw [ih]
    simp

theorem processEndpoint_eq (gm : GlobalMap) (mm : MinuteMap) :
    processEndpoint gm mm =
      (mm.map (fun b => ⟨b.1, sortedCountsOf b.2⟩),
        mm.foldl (fun g b => b.2.foldl (fun g' p => globalAdd g' b.1 p.1 p.2) g) gm) := by
  unfold processEndpoint
  rw [processEndpoint_fold mm [] gm]
  simp

theorem globalEndpointFold (mm : MinuteMap) :
    ∀ gm : GlobalMap, GlobalWF gm →
      GlobalWF (mm.foldl (fun g b => b.2.foldl (fun g' p => globalAdd g' b.1 p.1 p.2) g) gm) ∧
      ∀ m s, gmCount
          (mm.foldl (fun g b => b.2.foldl (fun g' p => globalAdd g' b.1 p.1 p.2) g) gm) m s =
        gmCount gm m s + mmContrib mm m s := by
  induction mm with
  | nil =>
    intro gm hwf
    refine ⟨hwf, ?_⟩
    intro m s
    simp [mmContrib]
  | cons b rest ih =>
    intro gm hwf
    simp only [List.foldl_cons]
    obtain ⟨hwfb, hcountb⟩ := globalBucketFold b.1 b.2 gm hwf
    obtain ⟨hwf', hcount'⟩ := ih _ hwfb
    refine ⟨hwf', ?_⟩
    intro m s
    rw [hcount', hcountb m s]
    simp only [mmContrib, List.map_cons, List.sum_cons]
    rw [show (rest.map fun q => if q.1 = m then bucketContrib q.2 s else 0).sum =
      mmContrib rest m s from rfl]
    omega

theorem mmContrib_eq_zero_of_not_mem (mm : MinuteMap) (m s : Nat)
    (h : m ∉ mm.map Prod.fst) : mmContrib mm m s = 0 := by
  induction mm with
  | nil => rfl
  | cons b rest ih =>
    simp only [List.map_cons, List.mem_cons] at h
    push_neg at h
    simp only [mmContrib, List.map_cons, List.sum_cons, if_neg (Ne.symm h.1)]
    rw [Nat.zero_add]
    exact ih h.2

theorem countAt_conv (mm : MinuteMap) (m s : Nat)
    (hkeys : List.Pairwise (fun a b => a.1 < b.1) mm)
    (hnd : ∀ b ∈ mm, (b.2.map Prod.fst).Nodup) :
    countAt (mm.map fun b => ⟨b.1, sortedCountsOf b.2⟩) m s = mmContrib mm m s := by
  induction mm with
  | nil => simp [countAt, mmContrib]
  | cons b rest ih =>
    obtain ⟨hhead, htail⟩ := List.pairwise_cons.mp hkeys
    by_cases hm : b.1 = m
    · unfold countAt
      rw [List.map_cons, List.find?_cons_of_pos _ (by simp [hm])]
      simp only
      rw [countIn_sortedCountsOf b.2 s (hnd b (List.mem_cons_self _ _))]
      simp only [mmContrib, List.map_cons, List.sum_cons, if_pos hm]
      rw [show (rest.map fun q => if q.1 = m then bucketContrib q.2 s else 0).sum =
        mmContrib rest m s from rfl]
      rw [mmContrib_eq_zero_of_not_mem rest m s]
      · omega
      · intro hmem
        simp only [List.mem_map] at hmem
        obtain ⟨q, hq, hqe⟩ := hmem
        have := hhead q hq
        omega
    · unfold countAt
      rw [List.map_cons, List.find?_cons_of_neg _ (by simp [hm])]
      rw [show (match List.find? (fun a => a.minute == m)
          (rest.map fun b => (⟨b.1, sortedCountsOf b.2⟩ : MinuteAggregate)) with
        | some agg => countIn agg.counts s
        | none => 0) = countAt (rest.map fun b => ⟨b.1, sortedCountsOf b.2⟩) m s from rfl]
      rw [ih htail (fun b hb => hnd b (List.mem_cons_of_mem _ hb))]
      simp only [mmContrib, List.map_cons, List.sum_cons, if_neg hm]
      rw [Nat.zero_add]

theorem isEmpty_insertionSort {α : Type} (r : α → α → Prop) [DecidableRel r]
    (l : List α) : (List.insertionSort r l).isEmpty = l.isEmpty := by
  cases hl : List.insertionSort r l with
  | nil =>
    have hlen := List.length_insertionSort r l
    rw [hl] at hlen
    have : l = [] := List.length_eq_zero.mp hlen.symm
    rw [this]
  | cons x xs =>
    have hlen := List.length_insertionSort r l
    rw [hl] at hlen
    cases l with
    | nil => simp at hlen
    | cons y ys => rfl

theorem isEmpty_map {α β : Type} (f : α → β) (l : List α) :
    (l.map f).isEmpty = l.isEmpty := by
  cases l <;> rfl

theorem sortConv_eq (mm : MinuteMap)
    (hkeys : List.Pairwise (fun a b => a.1 < b.1) mm) :
    List.insertionSort (fun a b => a.minute ≤ b.minute)
        (mm.map fun b => (⟨b.1, sortedCountsOf b.2⟩ : MinuteAggregate)) =
      mm.map fun b => ⟨b.1, sortedCountsOf b.2⟩ := by
  apply List.Sorted.insertionSort_eq
  exact List.Pairwise.map _ (fun a b h => le_of_lt h) hkeys

theorem processService_fold (em : EndpointMap) :
    ∀ (eAcc : List EndpointSnapshot) (gm : GlobalMap),
      em.foldl
        (fun acc entry =>
          (if (List.insertionSort (fun a b => a.minute ≤ b.minute)
                (processEndpoint acc.2 entry.2).1).isEmpty
            then acc.1
            else acc.1 ++ [⟨entry.1, List.insertionSort (fun a b => a.minute ≤ b.minute)
              (processEndpoint acc.2 entry.2).1⟩],
            (processEndpoint acc.2 entry.2).2))
        (eAcc, gm) =
      (eAcc ++ (em.filter fun ep => !ep.2.isEmpty).map (fun ep =>
          ⟨ep.1, List.insertionSort (fun a b => a.minute ≤ b.minute)
            (ep.2.map fun b => ⟨b.1, sortedCountsOf b.2⟩)⟩),
        em.foldl (fun g ep => ep.2.foldl
          (fun g' b => b.2.foldl (fun g'' p => globalAdd g'' b.1 p.1 p.2) g') g) gm) := by
  induction em with
  | nil => intro eAcc gm; simp
  | cons ep rest ih =>
    intro eAcc gm
    rw [List.foldl_cons]
    show List.foldl _
      (if (List.insertionSort (fun a b => a.minute ≤ b.minute)
            (processEndpoint gm ep.2).1).isEmpty
        then eAcc
        else eAcc ++ [⟨ep.1, List.insertionSort (fun a b => a.minute ≤ b.minute)
          (processEndpoint gm ep.2).1⟩],
        (processEndpoint gm ep.2).2) rest = _
    have hcond : (List.insertionSort (fun a b => a.minute ≤ b.minute)
        (processEndpoint gm ep.2).1).isEmpty = ep.2.isEmpty := by
      rw [processEndpoint_eq]
      show (List.insertionSort (fun a b => a.minute ≤ b.minute)
        (ep.2.map fun b => (⟨b.1, sortedCountsOf b.2⟩ : MinuteAggregate))).isEmpty = _
      rw [isEmpty_insertionSort, isEmpty_map]
    rw [hcond]
    by_cases he : ep.2.isEmpty = true
    · rw [if_pos he]
      have hmm : ep.2 = [] := List.isEmpty_iff.mp he
      show List.foldl _ (eAcc, (processEndpoint gm ep.2).2) rest = _
      rw [processEndpoint_eq]
      show List.foldl _ (eAcc, ep.2.foldl
        (fun g b => b.2.foldl (fun g' p => globalAdd g' b.1 p.1 p.2) g) gm) rest = _
      rw [ih]
      rw [List.filter_cons_of_neg (by simp [he]), List.foldl_cons]
    · rw [if_neg he]
      show List.foldl _
        (eAcc ++ [⟨ep.1, List.insertionSort (fun a b => a.minute ≤ b.minute)
          (processEndpoint gm ep.2).1⟩], (processEndpoint gm ep.2).2) rest = _
      rw [processEndpoint_eq]
      show List.foldl _
        (eAcc ++ [⟨ep.1, List.insertionSort (fun a b => a.minute ≤ b.minute)
          (ep.2.map fun b => ⟨b.1, sortedCountsOf b.2⟩)⟩],
          ep.2.foldl (fun g b => b.2.foldl
            (fun g' p => globalAdd g' b.1 p.1 p.2) g) gm) rest = _
      rw [ih]
      rw [List.filter_cons_of_pos (by simp [he]), List.map_cons, List.foldl_cons]
      simp

theorem snapshotFold_fold (d : StatsData) :
    ∀ (sAcc : List ServiceSnapshot) (gm : GlobalMap),
      d.foldl
        (fun acc entry =>
          (if (List.insertionSort (fun a b => a.endpoint ≤ b.endpoint)
                (processService acc.2 entry.2).1).isEmpty
            then acc.1
            else acc.1 ++ [⟨entry.1, List.insertionSort (fun a b => a.endpoint ≤ b.endpoint)
              (processService acc.2 entry.2).1⟩],
            (processService acc.2 entry.2).2))
        (sAcc, gm) =
      (sAcc ++ (d.filter fun svc =>
          !((svc.2.filter fun ep => !ep.2.isEmpty).isEmpty)).map (fun svc =>
          ⟨svc.1, List.insertionSort (fun a b => a.endpoint ≤ b.endpoint)
            ((svc.2.filter fun ep => !ep.2.isEmpty).map fun ep =>
              ⟨ep.1, List.insertionSort (fun a b => a.minute ≤ b.minute)
                (ep.2.map fun b => ⟨b.1, sortedCountsOf b.2⟩)⟩)⟩),
        d.foldl (fun g svc => svc.2.foldl (fun g' ep => ep.2.foldl
          (fun g'' b => b.2.foldl (fun g''' p => globalAdd g''' b.1 p.1 p.2) g'') g') g) gm) := by
  induction d with
  | nil => intro sAcc gm; simp
  | cons svc rest ih =>
    intro sAcc gm
    rw [List.foldl_cons]
    show List.foldl _
      (if (List.insertionSort (fun a b => a.endpoint ≤ b.endpoint)
            (processService gm svc.2).1).isEmpty
        then sAcc
        else sAcc ++ [⟨svc.1, List.insertionSort (fun a b => a.endpoint ≤ b.endpoint)
          (processService gm svc.2).1⟩],
        (processService gm svc.2).2) rest = _
    have hps : processService gm svc.2 =
        ((svc.2.filter fun ep => !ep.2.isEmpty).map (fun ep =>
          ⟨ep.1, List.insertionSort (fun a b => a.minute ≤ b.minute)
            (ep.2.map fun b => ⟨b.1, sortedCountsOf b.2⟩)⟩),
          svc.2.foldl (fun g ep => ep.2.foldl
            (fun g' b => b.2.foldl (fun g'' p => globalAdd g'' b.1 p.1 p.2) g') g) gm) := by
      unfold processService
      rw [processService_fold svc.2 [] gm]
      simp
    have hcond : (List.insertionSort (fun a b => a.endpoint ≤ b.endpoint)
        (processService gm svc.2).1).isEmpty =
        (svc.2.filter fun ep => !ep.2.isEmpty).isEmpty := by
      rw [hps]
      show (List.insertionSort (fun a b => a.endpoint ≤ b.endpoint)
        ((svc.2.filter fun ep => !ep.2.isEmpty).map fun ep =>
          (⟨ep.1, List.insertionSort (fun a b => a.minute ≤ b.minute)
            (ep.2.map fun b => ⟨b.1, sortedCountsOf b.2⟩)⟩ : EndpointSnapshot))).isEmpty = _
      rw [isEmpty_insertionSort, isEmpty_map]
    rw [hcond]
    by_cases he : (svc.2.filter fun ep => !ep.2.isEmpty).isEmpty = true
    · rw [if_pos he]
      show List.foldl _ (sAcc, (processService gm svc.2).2) rest = _
      rw [hps]
      show List.foldl _ (sAcc, svc.2.foldl (fun g ep => ep.2.foldl
        (fun g' b => b.2.foldl (fun g'' p => globalAdd g'' b.1 p.1 p.2) g') g) gm) rest = _
      rw [ih]
      rw [List.filter_cons_of_neg (by simp [he]), List.foldl_cons]
    · rw [if_neg he]
      show List.foldl _
        (sAcc ++ [⟨svc.1, List.insertionSort (fun a b => a.endpoint ≤ b.endpoint)
          (processService gm svc.2).1⟩], (processService gm svc.2).2) rest = _
      rw [hps]
      show List.foldl _
        (sAcc ++ [⟨svc.1, List.insertionSort (fun a b => a.endpoint ≤ b.endpoint)
          ((svc.2.filter fun ep => !ep.2.isEmpty).map fun ep =>
            ⟨ep.1, List.insertionSort (fun a b => a.minute ≤ b.minute)
              (ep.2.map fun b => ⟨b.1, sortedCountsOf b.2⟩)⟩)⟩],
          svc.2.foldl (fun g ep => ep.2.foldl
            (fun g' b => b.2.foldl (fun g'' p => globalAdd g'' b.1 p.1 p.2) g') g) gm) rest = _
      rw [ih]
      rw [List.filter_cons_of_pos (by simp [he]), List.map_cons, List.foldl_cons]
      simp

theorem globalServiceFold (em : EndpointMap) :
    ∀ gm : GlobalMap, GlobalWF gm →
      GlobalWF (em.foldl (fun g ep => ep.2.foldl
        (fun g' b => b.2.foldl (fun g'' p => globalAdd g'' b.1 p.1 p.2) g') g) gm) ∧
      ∀ m s, gmCount (em.foldl (fun g ep => ep.2.foldl
          (fun g' b => b.2.foldl (fun g'' p => globalAdd g'' b.1 p.1 p.2) g') g) gm) m s =
        gmCount gm m s + emContrib em m s := by
  induction em with
  | nil =>
    intro gm hwf
    refine ⟨hwf, ?_⟩
    intro m s
    simp [emContrib]
  | cons ep rest ih =>
    intro gm hwf
    simp only [List.foldl_cons]
    obtain ⟨hwfe, hcounte⟩ := globalEndpointFold ep.2 gm hwf
    obtain ⟨hwf', hcount'⟩ := ih _ hwfe
    refine ⟨hwf', ?_⟩
    intro m s
    rw [hcount', hcounte m s]
    simp only [emContrib, List.map_cons, List.sum_cons]
    rw [show (rest.map fun q => mmContrib q.2 m s).sum = emContrib rest m s from rfl]
    omega

theorem globalTopFold (d : StatsData) :
    ∀ gm : GlobalMap, GlobalWF gm →
      GlobalWF (d.foldl (fun g svc => svc.2.foldl (fun g' ep => ep.2.foldl
        (fun g'' b => b.2.foldl (fun g''' p => globalAdd g''' b.1 p.1 p.2) g'') g') g) gm) ∧
      ∀ m s, gmCount (d.foldl (fun g svc => svc.2.foldl (fun g' ep => ep.2.foldl
          (fun g'' b => b.2.foldl (fun g''' p => globalAdd g''' b.1 p.1 p.2) g'') g') g) gm)
          m s =
        gmCount gm m s + dContrib d m s := by
  induction d with
  | nil =>
    intro gm hwf
    refine ⟨hwf, ?_⟩
    intro m s
    simp [dContrib]
  | cons svc rest ih =>
    intro gm hwf
    simp only [List.foldl_cons]
    obtain ⟨hwfs, hcounts⟩ := globalServiceFold svc.2 gm hwf
    obtain ⟨hwf', hcount'⟩ := ih _ hwfs
    refine ⟨hwf', ?_⟩
    intro m s
    rw [hcount', hcounts m s]
    simp only [dContrib, List.map_cons, List.sum_cons]
    rw [show (rest.map fun q => emContrib q.2 m s).sum = dContrib rest m s from rfl]
    omega

theorem countAt_globalMap (gm : GlobalMap) (m s : Nat) :
    countAt (gm.map fun e => (⟨e.1, e.2⟩ : MinuteAggregate)) m s = gmCount gm m s := by
  induction gm with
  | nil => simp [countAt, gmCount, findAssoc, countIn]
  | cons e rest ih =>
    by_cases hm : e.1 = m
    · unfold countAt gmCount
      rw [List.map_cons, List.find?_cons_of_pos _ (by simp [hm])]
      rw [show findAssoc ((e.1, e.2) :: rest) m = some e.2 from by simp [findAssoc, hm]]
      simp
    · unfold countAt gmCount
      rw [List.map_cons, List.find?_cons_of_neg _ (by simp [hm])]
      rw [show findAssoc ((e.1, e.2) :: rest) m = findAssoc rest m from by
        simp [findAssoc, hm]]
      exact ih

theorem epsSum (em : EndpointMap) (m s : Nat)
    (hwf : ∀ ep ∈ em, List.Pairwise (fun a b => a.1 < b.1) ep.2 ∧
      ∀ b ∈ ep.2, (b.2.map Prod.fst).Nodup) :
    (((em.filter fun ep => !ep.2.isEmpty).map fun ep =>
        (⟨ep.1, List.insertionSort (fun a b => a.minute ≤ b.minute)
          (ep.2.map fun b => ⟨b.1, sortedCountsOf b.2⟩)⟩ : EndpointSnapshot)).map
      (fun eps => countAt eps.minutes m s)).sum = emContrib em m s := by
  induction em with
  | nil => simp [emContrib]
  | cons ep rest ih =>
    have hwfe := hwf ep (List.mem_cons_self _ _)
    have hwfr : ∀ ep' ∈ rest, List.Pairwise (fun a b => a.1 < b.1) ep'.2 ∧
        ∀ b ∈ ep'.2, (b.2.map Prod.fst).Nodup :=
      fun ep' h => hwf ep' (List.mem_cons_of_mem _ h)
    by_cases he : ep.2.isEmpty = true
    · rw [List.filter_cons_of_neg (by simp [he])]
      rw [ih hwfr]
      have hmm0 : ep.2 = [] := List.isEmpty_iff.mp he
      simp only [emContrib, List.map_cons, List.sum_cons, hmm0]
      rw [show (rest.map fun q => mmContrib q.2 m s).sum = emContrib rest m s from rfl]
      simp [mmContrib]
    · rw [List.filter_cons_of_pos (by simp [he])]
      simp only [List.map_cons, List.sum_cons]
      rw [sortConv_eq ep.2 hwfe.1]
      rw [countAt_conv ep.2 m s hwfe.1 hwfe.2]
      rw [ih hwfr]
      simp only [emContrib, List.map_cons, List.sum_cons]

theorem builtServices_sum (d : StatsData) (m s : Nat) (hwf : StatsWF d) :
    (((d.filter fun svc => !((svc.2.filter fun ep => !ep.2.isEmpty).isEmpty)).map (fun svc =>
        (⟨svc.1, List.insertionSort (fun a b => a.endpoint ≤ b.endpoint)
          ((svc.2.filter fun ep => !ep.2.isEmpty).map fun ep =>
            ⟨ep.1, List.insertionSort (fun a b => a.minute ≤ b.minute)
              (ep.2.map fun b => ⟨b.1, sortedCountsOf b.2⟩)⟩)⟩ : ServiceSnapshot))).map
      (fun svc => (svc.endpoints.map fun ep => countAt ep.minutes m s).sum)).sum
      = dContrib d m s := by
  induction d with
  | nil => simp [dContrib]
  | cons svc rest ih =>
    have hwfs : ∀ ep ∈ svc.2, List.Pairwise (fun a b => a.1 < b.1) ep.2 ∧
        ∀ b ∈ ep.2, (b.2.map Prod.fst).Nodup :=
      fun ep h => hwf svc (List.mem_cons_self _ _) ep h
    have hwfr : StatsWF rest := fun svc' h => hwf svc' (List.mem_cons_of_mem _ h)
    have hsvc : ((List.insertionSort (fun a b => a.endpoint ≤ b.endpoint)
          ((svc.2.filter fun ep => !ep.2.isEmpty).map fun ep =>
            (⟨ep.1, List.insertionSort (fun a b => a.minute ≤ b.minute)
              (ep.2.map fun b => ⟨b.1, sortedCountsOf b.2⟩)⟩ : EndpointSnapshot))).map
        (fun eps => countAt eps.minutes m s)).sum = emContrib svc.2 m s := by
      have hperm := List.perm_insertionSort (fun a b => a.endpoint ≤ b.endpoint)
        ((svc.2.filter fun ep => !ep.2.isEmpty).map fun ep =>
          (⟨ep.1, List.insertionSort (fun a b => a.minute ≤ b.minute)
            (ep.2.map fun b => ⟨b.1, sortedCountsOf b.2⟩)⟩ : EndpointSnapshot))
      rw [List.Perm.sum_eq (hperm.map (fun eps => countAt eps.minutes m s))]
      exact epsSum svc.2 m s hwfs
    by_cases hc : ((svc.2.filter fun ep => !ep.2.isEmpty).isEmpty) = true
    · rw [List.filter_cons_of_neg (by simp [hc])]
      rw [ih hwfr]
      have hz : emContrib svc.2 m s = 0 := by
        rw [← hsvc]
        rw [List.isEmpty_iff.mp hc]
        simp
      simp only [dContrib, List.map_cons, List.sum_cons]
      rw [show (rest.map fun q => emContrib q.2 m s).sum = dContrib rest m s from rfl]
      omega
    · rw [List.filter_cons_of_pos (by simp [hc])]
      simp only [List.map_cons, List.sum_cons]
      rw [hsvc, ih hwfr]
      simp only [dContrib, List.map_cons, List.sum_cons]

theorem modifyAssoc_preserve {κ β : Type} [DecidableEq κ] (P : β → Prop)
    (l : List (κ × β)) (k : κ) (dflt : β) (f : β → β)
    (hf : ∀ v, P v → P (f v)) (hd : P dflt) (hl : ∀ kv ∈ l, P kv.2) :
    ∀ kv ∈ modifyAssoc l k dflt f, P kv.2 := by
  induction l with
  | nil =>
    intro kv hkv
    simp only [modifyAssoc, List.mem_singleton] at hkv
    subst hkv
    exact hf dflt hd
  | cons p rest ih =>
    obtain ⟨k', v⟩ := p
    intro kv hkv
    by_cases hk : k' = k
    · rw [show modifyAssoc ((k', v) :: rest) k dflt f = (k', f v) :: rest from by
        simp [modifyAssoc, hk]] at hkv
      rcases List.mem_cons.mp hkv with rfl | hm
      · exact hf v (hl (k', v) (List.mem_cons_self _ _))
      · exact hl kv (List.mem_cons_of_mem _ hm)
    · rw [show modifyAssoc ((k', v) :: rest) k dflt f =
        (k', v) :: modifyAssoc rest k dflt f from by simp [modifyAssoc, hk]] at hkv
      rcases List.mem_cons.mp hkv with rfl | hm
      · exact hl (k', v) (List.mem_cons_self _ _)
      · exact ih (fun kv h => hl kv (List.mem_cons_of_mem _ h)) kv hm

theorem pairwise_minuteUpdate (mm : MinuteMap) (minute st : Nat)
    (h : List.Pairwise (fun a b => a.1 < b.1) mm) :
    List.Pairwise (fun a b => a.1 < b.1) (minuteUpdate mm minute st) := by
  induction mm with
  | nil => simp [minuteUpdate]
  | cons p rest ih =>
    obtain ⟨k₀, counts₀⟩ := p
    obtain ⟨hhead, htail⟩ := List.pairwise_cons.mp h
    by_cases h1 : minute < k₀
    · rw [show minuteUpdate ((k₀, counts₀) :: rest) minute st =
        (minute, [(st, 1)]) :: (k₀, counts₀) :: rest from by simp [minuteUpdate, h1]]
      refine List.pairwise_cons.mpr ⟨?_, h⟩
      intro q hq
      rcases List.mem_cons.mp hq with rfl | hq'
      · exact h1
      · have := hhead q hq'
        omega
    · by_cases h2 : minute = k₀
      · subst h2
        rw [show minuteUpdate ((minute, counts₀) :: rest) minute st =
          (minute, bumpStatus counts₀ st) :: rest from by simp [minuteUpdate, h1]]
        exact List.pairwise_cons.mpr ⟨hhead, htail⟩
      · rw [show minuteUpdate ((k₀, counts₀) :: rest) minute st =
          (k₀, counts₀) :: minuteUpdate rest minute st from by simp [minuteUpdate, h1, h2]]
        refine List.pairwise_cons.mpr ⟨?_, ih htail⟩
        intro q hq
        have hq' : q.1 ∈ (minuteUpdate rest minute st).map Prod.fst :=
          List.mem_map_of_mem _ hq
        rw [mem_keys_minuteUpdate] at hq'
        rcases hq' with rfl | hmem
        · omega
        · simp only [List.mem_map] at hmem
          obtain ⟨q', hq'', hqe⟩ := hmem
          have := hhead q' hq''
          omega

theorem mem_keys_bumpStatus (counts : StatusCounts) (st k : Nat) :
    k ∈ (bumpStatus counts st).map Prod.fst ↔ k = st ∨ k ∈ counts.map Prod.fst := by
  induction counts with
  | nil => simp [bumpStatus]
  | cons p rest ih =>
    obtain ⟨s₀, c₀⟩ := p
    by_cases h : s₀ = st
    · subst h
      rw [show bumpStatus ((s₀, c₀) :: rest) s₀ = (s₀, c₀ + 1) :: rest from by
        simp [bumpStatus]]
      simp
    · rw [show bumpStatus ((s₀, c₀) :: rest) st = (s₀, c₀) :: bumpStatus rest st from by
        simp [bumpStatus, h]]
      simp [ih]
      tauto

theorem bumpStatus_nodup (counts : StatusCounts) (st : Nat)
    (h : (counts.map Prod.fst).Nodup) : ((bumpStatus counts st).map Prod.fst).Nodup := by
  induction counts with
  | nil => simp [bumpStatus]
  | cons p rest ih =>
    obtain ⟨s₀, c₀⟩ := p
    simp only [List.map_cons, List.nodup_cons] at h
    by_cases hs : s₀ = st
    · subst hs
      rw [show bumpStatus ((s₀, c₀) :: rest) s₀ = (s₀, c₀ + 1) :: rest from by
        simp [bumpStatus]]
      simp only [List.map_cons, List.nodup_cons]
      exact ⟨h.1, h.2⟩
    · rw [show bumpStatus ((s₀, c₀) :: rest) st = (s₀, c₀) :: bumpStatus rest st from by
        simp [bumpStatus, hs]]
      simp only [List.map_cons, List.nodup_cons]
      refine ⟨?_, ih h.2⟩
      intro hmem
      rw [mem_keys_bumpStatus] at hmem
      rcases hmem with rfl | hmem'
      · exact hs rfl
      · exact h.1 hmem'

theorem minuteUpdate_nodup (mm : MinuteMap) (minute st : Nat)
    (h : ∀ b ∈ mm, (b.2.map Prod.fst).Nodup) :
    ∀ b ∈ minuteUpdate mm minute st, (b.2.map Prod.fst).Nodup := by
  induction mm with
  | nil =>
    intro b hb
    simp only [minuteUpdate, List.mem_singleton] at hb
    subst hb
    simp
  | cons p rest ih =>
    obtain ⟨k₀, counts₀⟩ := p
    intro b hb
    by_cases h1 : minute < k₀
    · rw [show minuteUpdate ((k₀, counts₀) :: rest) minute st =
        (minute, [(st, 1)]) :: (k₀, counts₀) :: rest from by simp [minuteUpdate, h1]] at hb
      rcases List.mem_cons.mp hb with rfl | hb'
      · simp
      · exact h b hb'
    · by_cases h2 : minute = k₀
      · subst h2
        rw [show minuteUpdate ((minute, counts₀) :: rest) minute st =
          (minute, bumpStatus counts₀ st) :: rest from by simp [minuteUpdate, h1]] at hb
        rcases List.mem_cons.mp hb with rfl | hb'
        · exact bumpStatus_nodup counts₀ st (h (minute, counts₀) (List.mem_cons_self _ _))
        · exact h b (List.mem_cons_of_mem _ hb')
      · rw [show minuteUpdate ((k₀, counts₀) :: rest) minute st =
          (k₀, counts₀) :: minuteUpdate rest minute st from by
            simp [minuteUpdate, h1, h2]] at hb
        rcases List.mem_cons.mp hb with rfl | hb'
        · exact h (k₀, counts₀) (List.mem_cons_self _ _)
        · exact ih (fun b h' => h b (List.mem_cons_of_mem _ h')) b hb'

theorem statsWF_record (d : StatsData) (s e : Str) (st t : Nat) (h : StatsWF d) :
    StatsWF (statsRecord d s e st t) := by
  have h' : ∀ kv ∈ d, ∀ ep ∈ kv.2,
      List.Pairwise (fun a b => a.1 < b.1) ep.2 ∧
      ∀ b ∈ ep.2, (b.2.map Prod.fst).Nodup := h
  simp only [statsRecord]
  intro svc hsvc
  refine modifyAssoc_preserve
    (fun em => ∀ ep ∈ em, List.Pairwise (fun a b => a.1 < b.1) ep.2 ∧
      ∀ b ∈ ep.2, (b.2.map Prod.fst).Nodup)
    d s [] _ ?_ (by simp) h' svc hsvc
  intro em hem
  refine modifyAssoc_preserve
    (fun mm => List.Pairwise (fun a b => a.1 < b.1) mm ∧
      ∀ b ∈ mm, (b.2.map Prod.fst).Nodup)
    em e [] _ ?_ ⟨List.Pairwise.nil, by simp⟩ hem
  intro mm hmm
  refine ⟨?_, ?_⟩
  · exact List.Pairwise.filter _ (pairwise_minuteUpdate mm (t / 60) st hmm.1)
  · intro b hb
    have hb' : b ∈ minuteUpdate mm (t / 60) st := (List.mem_filter.mp hb).1
    exact minuteUpdate_nodup mm (t / 60) st hmm.2 b hb'

theorem statsWF_applyRecords (ops : List RecOp) : StatsWF (applyRecords ops) := by
  unfold applyRecords
  have aux : ∀ (ops : List RecOp) (d : StatsData), StatsWF d →
      StatsWF (ops.foldl
        (fun d op => statsRecord d op.service op.endpoint op.status op.time) d) := by
    intro ops
    induction ops with
    | nil => intro d hd; exact hd
    | cons op rest ih =>
      intro d hd
      simp only [List.foldl_cons]
      exact ih _ (statsWF_record d op.service op.endpoint op.status op.time hd)
  exact aux ops [] (fun svc h => absurd h (List.not_mem_nil _))

/-- C6: for every reachable stats store state (any sequence of record
operations applied to the empty store) and every snapshot time, the
snapshot lists services sorted by name ascending, each service's
endpoints sorted by name ascending, each endpoint's minute aggregates
sorted by minute ascending, reports `window_minutes = 60` (and stamps
`generated_at` with the snapshot time), the global minute list is sorted
ascending, and for every minute `m` and status `s` the global count at
`(m, s)` equals the sum over all listed services and endpoints of their
count at `(m, s)`. -/
theorem C6_snapshot (ops : List RecOp) (nowSecs m s : Nat) :
    (statsSnapshot (applyRecords ops) nowSecs).windowMinutes = 60 ∧
    (statsSnapshot (applyRecords ops) nowSecs).generatedAt = nowSecs ∧
    List.Sorted (fun a b => a ≤ b)
      ((statsSnapshot (applyRecords ops) nowSecs).services.map fun svc => svc.service) ∧
    (∀ svc ∈ (statsSnapshot (applyRecords ops) nowSecs).services,
      List.Sorted (fun a b => a ≤ b) (svc.endpoints.map fun ep => ep.endpoint) ∧
      ∀ ep ∈ svc.endpoints,
        List.Sorted (fun a b => a ≤ b) (ep.minutes.map fun agg => agg.minute)) ∧
    List.Sorted (fun a b => a ≤ b)
      ((statsSnapshot (applyRecords ops) nowSecs).global.map fun agg => agg.minute) ∧
    countAt (statsSnapshot (applyRecords ops) nowSecs).global m s =
      ((statsSnapshot (applyRecords ops) nowSecs).services.map fun svc =>
        (svc.endpoints.map fun ep => countAt ep.minutes m s).sum).sum := by
  have hwf : StatsWF (applyRecords ops) := statsWF_applyRecords ops
  have hsf1 : (snapshotFold (applyRecords ops)).1 =
      ((applyRecords ops).filter fun svc =>
          !((svc.2.filter fun ep => !ep.2.isEmpty).isEmpty)).map (fun svc =>
        ⟨svc.1, List.insertionSort (fun a b => a.endpoint ≤ b.endpoint)
          ((svc.2.filter fun ep => !ep.2.isEmpty).map fun ep =>
            ⟨ep.1, List.insertionSort (fun a b => a.minute ≤ b.minute)
              (ep.2.map fun bkt => ⟨bkt.1, sortedCountsOf bkt.2⟩)⟩)⟩) := by
    unfold snapshotFold
    rw [snapshotFold_fold (applyRecords ops) [] []]
    simp
  have hsf2 : (snapshotFold (applyRecords ops)).2 =
      (applyRecords ops).foldl (fun g svc => svc.2.foldl (fun g' ep => ep.2.foldl
        (fun g'' bkt => bkt.2.foldl (fun g''' p => globalAdd g''' bkt.1 p.1 p.2) g'') g') g)
        [] := by
    unfold snapshotFold
    rw [snapshotFold_fold (applyRecords ops) [] []]
  have hgwf := globalTopFold (applyRecords ops) []
    ⟨List.Pairwise.nil, fun e h => absurd h (List.not_mem_nil _)⟩
  have hserv : (statsSnapshot (applyRecords ops) nowSecs).services =
      List.insertionSort (fun a b => a.service ≤ b.service)
        (snapshotFold (applyRecords ops)).1 := rfl
  have hglob : (statsSnapshot (applyRecords ops) nowSecs).global =
      (snapshotFold (applyRecords ops)).2.map fun e => (⟨e.1, e.2⟩ : MinuteAggregate) := rfl
  refine ⟨rfl, rfl, ?_, ?_, ?_, ?_⟩
  · rw [hserv]
    exact List.Pairwise.map _ (fun a b h => h) (List.sorted_insertionSort _ _)
  · intro svc hsvc
    rw [hserv] at hsvc
    have hsvc' : svc ∈ (snapshotFold (applyRecords ops)).1 :=
      (List.perm_insertionSort _ _).mem_iff.mp hsvc
    rw [hsf1] at hsvc'
    obtain ⟨svc₀, hsvc₀, rfl⟩ := List.mem_map.mp hsvc'
    constructor
    · exact List.Pairwise.map _ (fun a b h => h) (List.sorted_insertionSort _ _)
    · intro ep hep
      have hep' : ep ∈ (svc₀.2.filter fun ep => !ep.2.isEmpty).map fun ep =>
          (⟨ep.1, List.insertionSort (fun a b => a.minute ≤ b.minute)
            (ep.2.map fun bkt => ⟨bkt.1, sortedCountsOf bkt.2⟩)⟩ : EndpointSnapshot) :=
        (List.perm_insertionSort _ _).mem_iff.mp hep
      obtain ⟨ep₀, hep₀, rfl⟩ := List.mem_map.mp hep'
      exact List.Pairwise.map _ (fun a b h => h) (List.sorted_insertionSort _ _)
  · rw [hglob, List.map_map, hsf2]
    exact List.Pairwise.map _ (fun a b h => le_of_lt h) hgwf.1.1
  · rw [hglob, countAt_globalMap, hsf2, hgwf.2 m s]
    rw [show gmCount [] m s = 0 from rfl]
    rw [hserv]
    rw [show ((List.insertionSort (fun a b => a.service ≤ b.service)
        (snapshotFold (applyRecords ops)).1).map fun svc =>
        (svc.endpoints.map fun ep => countAt ep.minutes m s).sum).sum =
      (((snapshotFold (applyRecords ops)).1).map fun svc =>
        (svc.endpoints.map fun ep => countAt ep.minutes m s).sum).sum from
      ((List.perm_insertionSort _ _).map _).sum_eq]
    rw [hsf1]
    rw [builtServices_sum (applyRecords ops) m s hwf]
    omega
